import Mathlib

/-!
Verification of the JSON decomposition and preview-rendering engine
(`JsonParser`: `parseJsonToCards` / `extractCards` in
`client/src/lib/json-parser.ts`, and the preview renderer
`formatJsonPreview` / `createStructuredPreview` with the friendly-name
helpers of the variant of that class shipped in the repository that the
specification describes).

The JSON data model is a tagged union.  Because Lean 4.14 does not support
structural recursion through nested `List` occurrences, the array and
object payloads are mutually inductive lists (`JsonList`, `JsonFields`);
conversions to ordinary lists are provided so that concrete documents can
be written with list literals.  JSON numbers are modeled as integers (all
inputs relevant to the claims are integer-valued) and JavaScript string
operations count characters (identical to UTF-16 units on the inputs of
interest).
-/

mutual

inductive JsonValue where
  | null : JsonValue
  | bool (b : Bool) : JsonValue
  | num (n : Int) : JsonValue
  | str (s : String) : JsonValue
  | arr (elems : JsonList) : JsonValue
  | obj (fields : JsonFields) : JsonValue

inductive JsonList where
  | nil : JsonList
  | cons (head : JsonValue) (tail : JsonList) : JsonList

inductive JsonFields where
  | nil : JsonFields
  | cons (key : String) (val : JsonValue) (tail : JsonFields) : JsonFields

end

/-- Convert a plain list of values to a `JsonList` (used to write concrete documents). -/
def ofList : List JsonValue → JsonList
  | [] => .nil
  | v :: t => .cons v (ofList t)

/-- Convert a plain association list to `JsonFields` (used to write concrete documents). -/
def ofFields : List (String × JsonValue) → JsonFields
  | [] => .nil
  | (k, v) :: t => .cons k v (ofFields t)

/-- The elements of an array payload, as a plain list. -/
def elemsList : JsonList → List JsonValue
  | .nil => []
  | .cons v t => v :: elemsList t

/-- The fields of an object payload, as a plain association list
(mirrors the insertion-order iteration of JavaScript objects). -/
def fieldsList : JsonFields → List (String × JsonValue)
  | .nil => []
  | .cons k v t => (k, v) :: fieldsList t

/-- Number of elements of an array (JavaScript `arr.length`). -/
def jsonListLength (l : JsonList) : Nat := (elemsList l).length

/-- Number of keys of an object (JavaScript `Object.keys(obj).length`). -/
def fieldsLength (f : JsonFields) : Nat := (fieldsList f).length

/-- JavaScript `Array.isArray(v)`. -/
def isArray : JsonValue → Bool
  | .arr _ => true
  | _ => false

/-- JavaScript `typeof v === 'object' && v !== null`; in the JSON data model
this holds exactly for arrays and objects. -/
def isObjectLike : JsonValue → Bool
  | .arr _ => true
  | .obj _ => true
  | _ => false

/-! String helpers mirroring the JavaScript primitives the source uses.
They are written by hand (rather than through the core `String` API) so
that every definition evaluates inside the kernel and so that the proofs
can reason about them directly at the character-list level. -/

/-- JavaScript `Array.prototype.join(sep)` on an array of strings. -/
def joinSep (sep : String) : List String → String
  | [] => ""
  | [s] => s
  | s :: rest => s ++ sep ++ joinSep sep rest

/-- JavaScript `s.substring(0, n)` (take the first `n` characters). -/
def strTake (s : String) (n : Nat) : String := String.mk (s.data.take n)

/-- Does the character list `l` start with `sub`? -/
def startsWithList : List Char → List Char → Bool
  | _, [] => true
  | [], _ :: _ => false
  | a :: as, b :: bs => a == b && startsWithList as bs

/-- Does `sub` occur contiguously inside `l`? -/
def containsList (l sub : List Char) : Bool :=
  startsWithList l sub ||
    match l with
    | [] => false
    | _ :: t => containsList t sub

/-- JavaScript `s.includes(sub)` (substring test). -/
def strIncludes (s sub : String) : Bool := containsList s.data sub.data

/-- JavaScript `s.split(sep)` on character lists, for a one-character separator. -/
def splitChars (sep : Char) : List Char → List (List Char)
  | [] => [[]]
  | c :: t =>
      let r := splitChars sep t
      if c == sep then [] :: r
      else
        match r with
        | [] => [[c]]
        | h :: t2 => (c :: h) :: t2

/-- JavaScript `s.trim()`: drop whitespace from both ends. -/
def trimEnds (s : String) : String :=
  String.mk ((((s.data.dropWhile Char.isWhitespace).reverse).dropWhile Char.isWhitespace).reverse)

/-- Decimal digit to character. -/
def digitChar (n : Nat) : Char :=
  if n = 0 then '0' else if n = 1 then '1' else if n = 2 then '2' else if n = 3 then '3'
  else if n = 4 then '4' else if n = 5 then '5' else if n = 6 then '6' else if n = 7 then '7'
  else if n = 8 then '8' else if n = 9 then '9' else '*'

/-- Lowercase hexadecimal digit to character (nibbles 10 to 15 become the
letters a to f, as in the `\uXXXX` escapes `JSON.stringify` emits). -/
def hexDigitChar (n : Nat) : Char :=
  if n = 10 then 'a' else if n = 11 then 'b' else if n = 12 then 'c'
  else if n = 13 then 'd' else if n = 14 then 'e' else if n = 15 then 'f'
  else digitChar n

/-- Decimal digits of `n`, most significant first.  The first argument is
structural fuel; `n + 1` is always enough since `n / 10 < n` for `n ≥ 10`. -/
def natToChars : Nat → Nat → List Char
  | 0, _ => []
  | fuel + 1, n => if n < 10 then [digitChar n] else natToChars fuel (n / 10) ++ [digitChar (n % 10)]

/-- Decimal representation of a natural number (JavaScript number-to-string
on non-negative integers). -/
def natRepr (n : Nat) : String := String.mk (natToChars (n + 1) n)

/-- Decimal representation of an integer (JavaScript number-to-string on
integer values). -/
def intRepr : Int → String
  | .ofNat n => natRepr n
  | .negSucc m => "-" ++ natRepr (m + 1)

/-- The base64 alphabet. -/
def b64Alphabet : List Char :=
  ['A','B','C','D','E','F','G','H','I','J','K','L','M','N','O','P','Q','R','S','T','U','V','W','X','Y','Z',
   'a','b','c','d','e','f','g','h','i','j','k','l','m','n','o','p','q','r','s','t','u','v','w','x','y','z',
   '0','1','2','3','4','5','6','7','8','9','+','/']

/-- Character for a 6-bit value. -/
def b64Char (n : Nat) : Char := b64Alphabet.getD n 'A'

/-- Base64 encoding of a byte sequence, with `=` padding
(JavaScript `btoa` on a Latin-1 string given as its code points). -/
def b64Encode : List Nat → List Char
  | [] => []
  | [a] => [b64Char (a / 4), b64Char (a % 4 * 16), '=', '=']
  | [a, b] => [b64Char (a / 4), b64Char (a % 4 * 16 + b / 16), b64Char (b % 16 * 4), '=']
  | a :: b :: c :: rest =>
      [b64Char (a / 4), b64Char (a % 4 * 16 + b / 16), b64Char (b % 16 * 4 + c / 64), b64Char (c % 64)]
      ++ b64Encode rest

/-! JSON serialization (`JSON.stringify`), total on the JSON data model. -/

/-- JSON string escaping of a single character, as `JSON.stringify` performs it. -/
def escapeJsonChar (c : Char) : List Char :=
  if c == '"' then ['\\', '"']
  else if c == '\\' then ['\\', '\\']
  else if c == '\n' then ['\\', 'n']
  else if c == '\r' then ['\\', 'r']
  else if c == '\t' then ['\\', 't']
  else if c == '\x08' then ['\\', 'b']
  else if c == '\x0c' then ['\\', 'f']
  else if c.toNat < 32 then
    ['\\', 'u', '0', '0', hexDigitChar (c.toNat / 16), hexDigitChar (c.toNat % 16)]
  else [c]

/-- A JSON-quoted string literal. -/
def jsonQuote (s : String) : String :=
  String.mk ('"' :: (s.data.map escapeJsonChar).flatten ++ ['"'])

mutual

/-- JavaScript `JSON.stringify(v)` for parsed JSON values (no spacing). -/
def jsonStringify : JsonValue → String
  | .null => "null"
  | .bool b => if b then "true" else "false"
  | .num n => intRepr n
  | .str s => jsonQuote s
  | .arr xs => "[" ++ joinSep "," (stringifyElems xs) ++ "]"
  | .obj kvs => "\x7b" ++ joinSep "," (stringifyFields kvs) ++ "\x7d"

/-- Serialized forms of the elements of an array. -/
def stringifyElems : JsonList → List String
  | .nil => []
  | .cons v t => jsonStringify v :: stringifyElems t

/-- Serialized `"key":value` members of an object. -/
def stringifyFields : JsonFields → List String
  | .nil => []
  | .cons k v t => (jsonQuote k ++ ":" ++ jsonStringify v) :: stringifyFields t

end

mutual

/-- JavaScript `String(v)` coercion: arrays join their elements with commas
(null elements become empty), plain objects print as `[object Object]`. -/
def jsToString : JsonValue → String
  | .null => "null"
  | .bool b => if b then "true" else "false"
  | .num n => intRepr n
  | .str s => s
  | .arr xs => joinSep "," (jsToStringElems xs)
  | .obj _ => "[object Object]"

/-- Element strings for `Array.prototype.toString`. -/
def jsToStringElems : JsonList → List String
  | .nil => []
  | .cons v t => (match v with | .null => "" | _ => jsToString v) :: jsToStringElems t

end

/-! Decidable equality for the mutual JSON type (the automatic deriving
handler does not support mutual inductives in this Lean version). -/

mutual

/-- Boolean equality on JSON values. -/
def beqV : JsonValue → JsonValue → Bool
  | .null, .null => true
  | .bool a, .bool b => a == b
  | .num a, .num b => a == b
  | .str a, .str b => a == b
  | .arr a, .arr b => beqL a b
  | .obj a, .obj b => beqF a b
  | _, _ => false

/-- Boolean equality on JSON array payloads. -/
def beqL : JsonList → JsonList → Bool
  | .nil, .nil => true
  | .cons a as, .cons b bs => beqV a b && beqL as bs
  | _, _ => false

/-- Boolean equality on JSON object payloads. -/
def beqF : JsonFields → JsonFields → Bool
  | .nil, .nil => true
  | .cons k a as, .cons k2 b bs => k == k2 && beqV a b && beqF as bs
  | _, _ => false

end

mutual

theorem beqV_refl : ∀ a : JsonValue, beqV a a = true
  | .null => rfl
  | .bool b => by simp [beqV]
  | .num n => by simp [beqV]
  | .str s => by simp [beqV]
  | .arr xs => by simp [beqV, beqL_refl xs]
  | .obj fs => by simp [beqV, beqF_refl fs]

theorem beqL_refl : ∀ a : JsonList, beqL a a = true
  | .nil => rfl
  | .cons v t => by simp [beqL, beqV_refl v, beqL_refl t]

theorem beqF_refl : ∀ a : JsonFields, beqF a a = true
  | .nil => rfl
  | .cons k v t => by simp [beqF, beqV_refl v, beqF_refl t]

end

mutual

theorem beqV_eq : ∀ a b : JsonValue, beqV a b = true → a = b
  | .null, b => by cases b <;> simp [beqV]
  | .bool x, b => by cases b <;> simp [beqV]
  | .num x, b => by cases b <;> simp [beqV]
  | .str x, b => by cases b <;> simp [beqV]
  | .arr xs, b => by
      cases b <;> simp [beqV]
      exact fun h => beqL_eq xs _ h
  | .obj fs, b => by
      cases b <;> simp [beqV]
      exact fun h => beqF_eq fs _ h

theorem beqL_eq : ∀ a b : JsonList, beqL a b = true → a = b
  | .nil, b => by cases b <;> simp [beqL]
  | .cons v t, b => by
      cases b with
      | nil => simp [beqL]
      | cons v2 t2 =>
          simp only [beqL, Bool.and_eq_true]
          exact fun ⟨h1, h2⟩ => by rw [beqV_eq v v2 h1, beqL_eq t t2 h2]

theorem beqF_eq : ∀ a b : JsonFields, beqF a b = true → a = b
  | .nil, b => by cases b <;> simp [beqF]
  | .cons k v t, b => by
      cases b with
      | nil => simp [beqF]
      | cons k2 v2 t2 =>
          simp only [beqF, Bool.and_eq_true]
          exact fun ⟨⟨hk, h1⟩, h2⟩ => by
            rw [beqV_eq v v2 h1, beqF_eq t t2 h2, (by exact of_decide_eq_true hk : k = k2)]

end

instance : DecidableEq JsonValue := fun a b =>
  if h : beqV a b = true then .isTrue (beqV_eq a b h)
  else .isFalse (fun e => h (e ▸ beqV_refl a))

instance : DecidableEq JsonList := fun a b =>
  if h : beqL a b = true then .isTrue (beqL_eq a b h)
  else .isFalse (fun e => h (e ▸ beqL_refl a))

instance : DecidableEq JsonFields := fun a b =>
  if h : beqF a b = true then .isTrue (beqF_eq a b h)
  else .isFalse (fun e => h (e ▸ beqF_refl a))

/-! The Card data model (`JsonCard` interface of `json-parser.ts`).

The TypeScript interface declares `warnings?: string[]` — an optional
field — and the primitive-root branch of `parseJsonToCards` builds its card
without a `warnings` entry, so `warnings` is modeled as an `Option`.
Likewise `title : Option String` together with
`parseJsonToCards (fileName : Option String)` models the JavaScript call
boundary, where the (TypeScript-mandatory) `fileName` argument may
nevertheless be absent at runtime (`undefined`), since the function body
performs no validation of it. -/

structure JsonCard where
  id : String
  title : Option String
  description : String
  path : String
  content : JsonValue
  type : String
  isValid : Bool
  warnings : Option (List String)
deriving DecidableEq

/-- The value of the id generator,
`btoa(path).replace(/[/+=]/g, '').substring(0, 8)`, on the paths where
`btoa` succeeds.  `btoa` itself is partial — it throws for characters
above U+00FF — and `generateIdE` below models the fallible call; this
total function gives the id of every card the program actually returns. -/
def generateId (path : String) : String :=
  String.mk (((b64Encode (path.data.map Char.toNat)).filter
    (fun c => !(c == '/' || c == '+' || c == '='))).take 8)

/-- Does `btoa` accept the string?  JavaScript `btoa` only accepts
Latin-1 input and throws an `InvalidCharacterError` when any character
has a code point above U+00FF. -/
def btoaOk (s : String) : Bool := s.data.all (fun c => decide (c.toNat ≤ 255))

/-- JavaScript `btoa` with its real failure behavior: base64-encode the
code points when they all fit in a byte, otherwise throw
`InvalidCharacterError`. -/
def jsBtoa (s : String) : Except String (List Char) :=
  if btoaOk s then .ok (b64Encode (s.data.map Char.toNat))
  else .error "InvalidCharacterError"

/-- The id generator with `btoa`'s failure behavior: the exception
propagates, otherwise strip `/+=` and truncate to 8 characters. -/
def generateIdE (path : String) : Except String String :=
  match jsBtoa path with
  | .error e => .error e
  | .ok l => .ok (String.mk ((l.filter (fun c => !(c == '/' || c == '+' || c == '='))).take 8))

/-- Insert a space before every ASCII capital letter
(the `replace(/([A-Z])/g, ' $1')` step). -/
def spaceBeforeCaps (l : List Char) : List Char :=
  (l.map (fun c => if c.isUpper then [' ', c] else [c])).flatten

/-- Replace underscores by spaces (the `replace(/_/g, ' ')` step). -/
def underscoresToSpaces (l : List Char) : List Char :=
  l.map (fun c => if c == '_' then ' ' else c)

/-- ASCII lowercase-to-uppercase pairs. -/
def lowerUpperPairs : List (Char × Char) :=
  [('a','A'), ('b','B'), ('c','C'), ('d','D'), ('e','E'), ('f','F'), ('g','G'),
   ('h','H'), ('i','I'), ('j','J'), ('k','K'), ('l','L'), ('m','M'), ('n','N'),
   ('o','O'), ('p','P'), ('q','Q'), ('r','R'), ('s','S'), ('t','T'), ('u','U'),
   ('v','V'), ('w','W'), ('x','X'), ('y','Y'), ('z','Z')]

/-- Table lookup for `asciiUpper`. -/
def lookupUpper (c : Char) : List (Char × Char) → Option Char
  | [] => none
  | (lo, up) :: t => if lo == c then some up else lookupUpper c t

/-- JavaScript `toUpperCase` restricted to ASCII letters (the only
characters it changes on the keys and paths of interest). -/
def asciiUpper (c : Char) : Char :=
  match lookupUpper c lowerUpperPairs with
  | some up => up
  | none => c

/-- Capitalize the first character (the `replace(/^./, s => s.toUpperCase())`
step; `.` does not match a newline, in which case nothing is replaced). -/
def upperFirst : List Char → List Char
  | [] => []
  | c :: t => if c == '\n' then c :: t else asciiUpper c :: t

/-- The camelCase / snake_case to Title Case chain shared by `pathToTitle`
and the fallback branch of `makeKeyFriendly` (both use the identical
replace/replace/replace/trim sequence). -/
def titleize (s : String) : String :=
  trimEnds (String.mk (upperFirst (underscoresToSpaces (spaceBeforeCaps s.data))))

/-- The `pathToTitle` helper of the extractor. -/
def pathToTitle (path : String) : String :=
  if path == "$" then "Root Object"
  else
    let parts := splitChars '.' path.data
    let lastPart := parts.getLastD []
    titleize (String.mk lastPart)

/-- The `validateJson` helper: `JSON.stringify` inside try/catch.  On the
JSON data model serialization is total (no cycles, no bigints), so the
catch branch is unreachable and the check always succeeds. -/
def validateJson (_obj : JsonValue) : Bool := true

/-- Array length when the value is an array, zero otherwise. -/
def jsArrayLength : JsonValue → Nat
  | .arr xs => jsonListLength xs
  | _ => 0

/-- Number of keys when the value is an object, zero otherwise. -/
def jsKeysCount : JsonValue → Nat
  | .obj fs => fieldsLength fs
  | _ => 0

/-- The `getWarnings` helper, statement by statement: inside the
object-like guard, push "Empty array" for an empty array, "Empty object"
for an object with zero keys, and "Contains null values" when the
serialized form contains the character sequence `null`
(`JSON.stringify(obj).includes('null')`). -/
def getWarnings (obj : JsonValue) : List String :=
  if isObjectLike obj then
    (if isArray obj && jsArrayLength obj == 0 then ["Empty array"] else []) ++
    (if !isArray obj && jsKeysCount obj == 0 then ["Empty object"] else []) ++
    (if strIncludes (jsonStringify obj) "null" then ["Contains null values"] else [])
  else []

/-- The card one `extractCards` visit emits for an array node. -/
def arrayCardAt (xs : JsonList) (path : String) : JsonCard :=
  { id := generateId path
    title := some (pathToTitle path)
    description := "Array with " ++ natRepr (jsonListLength xs) ++ " items"
    path := path
    content := .arr xs
    type := "array"
    isValid := validateJson (.arr xs)
    warnings := some (getWarnings (.arr xs)) }

/-- The card one `extractCards` visit emits for a non-empty object node. -/
def objCardAt (kvs : JsonFields) (path : String) : JsonCard :=
  { id := generateId path
    title := some (pathToTitle path)
    description := "Object with " ++ natRepr (fieldsLength kvs) ++ " properties"
    path := path
    content := .obj kvs
    type := "object"
    isValid := validateJson (.obj kvs)
    warnings := some (getWarnings (.obj kvs)) }

/-- Child path computation: `path === '$' ? `$.${key}` : `${path}.${key}``. -/
def childPath (path key : String) : String :=
  if path == "$" then "$." ++ key else path ++ "." ++ key

mutual

/-- The recursive `extractCards(obj, cards, path, depth)` method, as the list
of cards it appends: stop above depth 3; an array node emits exactly its own
card (no descent into elements); an object node emits its own card when it
has at least one key and then recurses into each object- or array-valued
field in insertion order; any other node emits nothing. -/
def extractCards (obj : JsonValue) (path : String) (depth : Nat) : List JsonCard :=
  if depth > 3 then []
  else
    match obj with
    | .arr xs => [arrayCardAt xs path]
    | .obj kvs =>
        (if fieldsLength kvs > 0 then [objCardAt kvs path] else []) ++
        extractChildren kvs path depth
    | _ => []

/-- The `for (const key of keys)` loop body of `extractCards`: recurse into a
field value only if it is object-like (`typeof value === 'object' && value
!== null`, a test arrays also pass). -/
def extractChildren (kvs : JsonFields) (path : String) (depth : Nat) : List JsonCard :=
  match kvs with
  | .nil => []
  | .cons key value rest =>
      (if isObjectLike value || isArray value then
        extractCards value (childPath path key) (depth + 1)
      else []) ++ extractChildren rest path depth

end

/-- The single card returned for a primitive (non-object, non-array,
including null) root; note the absent `warnings` field. -/
def primitiveRootCard (jsonContent : JsonValue) (fileName : Option String) : JsonCard :=
  { id := "root"
    title := fileName
    description := "Root value"
    path := "$"
    content := jsonContent
    type := "primitive"
    isValid := true
    warnings := none }

/-- The public `parseJsonToCards(jsonContent, fileName)` entry point. -/
def parseJsonToCards (jsonContent : JsonValue) (fileName : Option String) : List JsonCard :=
  if !isObjectLike jsonContent then [primitiveRootCard jsonContent fileName]
  else extractCards jsonContent "$" 0

/-! The extractor with its real failure behavior.  The only expression in
the extractor that can throw is `this.generateId(path)` — `btoa` raises
`InvalidCharacterError` on paths containing characters above U+00FF —
and it is evaluated first in each card literal, before the card is
pushed, so the exception propagates out of `extractCards` before any
later sibling or child is visited.  `extractCardsE` mirrors
`extractCards` with this propagation made explicit; on inputs where no
card path trips `btoa`, it returns exactly the cards of the total model
(proved below). -/

mutual

/-- `extractCards` with `btoa`'s exception propagated. -/
def extractCardsE (obj : JsonValue) (path : String) (depth : Nat) :
    Except String (List JsonCard) :=
  if depth > 3 then .ok []
  else
    match obj with
    | .arr xs =>
        (match generateIdE path with
         | .error e => .error e
         | .ok i => .ok [{ arrayCardAt xs path with id := i }])
    | .obj kvs =>
        (match (if fieldsLength kvs > 0 then
                  (match generateIdE path with
                   | .error e => Except.error e
                   | .ok i => Except.ok [{ objCardAt kvs path with id := i }])
                else Except.ok ([] : List JsonCard)) with
         | .error e => .error e
         | .ok own =>
             (match extractChildrenE kvs path depth with
              | .error e => .error e
              | .ok rest => .ok (own ++ rest)))
    | _ => .ok []

/-- The field loop of `extractCardsE`; the first exception raised by a
child visit propagates. -/
def extractChildrenE (kvs : JsonFields) (path : String) (depth : Nat) :
    Except String (List JsonCard) :=
  match kvs with
  | .nil => .ok []
  | .cons key value rest =>
      (match (if isObjectLike value || isArray value then
                extractCardsE value (childPath path key) (depth + 1)
              else Except.ok ([] : List JsonCard)) with
       | .error e => .error e
       | .ok own =>
           (match extractChildrenE rest path depth with
            | .error e => .error e
            | .ok more => .ok (own ++ more)))

end

/-- The public entry point with `btoa`'s exception propagated.  The
primitive-root branch uses the literal id `"root"` and thus can never
fail, with or without a label. -/
def parseJsonToCardsE (jsonContent : JsonValue) (fileName : Option String) :
    Except String (List JsonCard) :=
  if !isObjectLike jsonContent then .ok [primitiveRootCard jsonContent fileName]
  else extractCardsE jsonContent "$" 0

/-! The preview renderer (`formatJsonPreview` / `createStructuredPreview`
with `addSimpleArrayPreview`, `addSimpleObjectPreview`, `makeKeyFriendly`,
`formatPrimitiveValue`). -/

/-- The fixed key-to-display-name lookup table of `makeKeyFriendly`. -/
def friendlyMappings : List (String × String) :=
  [("id", "ID Number"), ("user_id", "User ID"), ("userId", "User ID"),
   ("name", "Name"), ("firstName", "First Name"), ("first_name", "First Name"),
   ("lastName", "Last Name"), ("last_name", "Last Name"), ("email", "Email"),
   ("phone", "Phone"), ("address", "Address"), ("created_at", "Created Date"),
   ("createdAt", "Created Date"), ("updated_at", "Updated Date"),
   ("updatedAt", "Updated Date"), ("price", "Price"), ("amount", "Amount"),
   ("quantity", "Quantity"), ("status", "Status"), ("isActive", "Is Active"),
   ("is_active", "Is Active")]

/-- First-match lookup in the friendly-name table. -/
def lookupFriendly (key : String) : List (String × String) → Option String
  | [] => none
  | (k, v) :: t => if k == key then some v else lookupFriendly key t

/-- `makeKeyFriendly`: table hit, else the camelCase/snake_case to
readable-format conversion (the same replace chain as `pathToTitle`). -/
def makeKeyFriendly (key : String) : String :=
  match lookupFriendly key friendlyMappings with
  | some v => v
  | none => titleize key

/-- `formatPrimitiveValue`: strings quoted (truncated at 27 characters with
an ellipsis when longer than 30), numbers and booleans via their natural
textual form, null as the literal text, anything else via the JavaScript
`String(value)` coercion. -/
def formatPrimitiveValue (value : JsonValue) : String :=
  match value with
  | .str s => if s.length > 30 then "\"" ++ strTake s 27 ++ "...\"" else "\"" ++ s ++ "\""
  | .num n => intRepr n
  | .bool b => if b then "true" else "false"
  | .null => "null"
  | v => jsToString v

/-- JavaScript `Object.keys(v)`: field names of an object, index strings of
an array, empty otherwise. -/
def jsKeys : JsonValue → List String
  | .obj fs => (fieldsList fs).map Prod.fst
  | .arr xs => (List.range (jsonListLength xs)).map natRepr
  | _ => []

/-- For an object-like value with at least one key, its first key together
with the value stored under it (`itemKeys[0]` and `item[itemKeys[0]]`);
`none` for primitives and for empty objects/arrays. -/
def jsFirstField : JsonValue → Option (String × JsonValue)
  | .obj (.cons k v _) => some (k, v)
  | .arr (.cons x _) => some ("0", x)
  | _ => none

/-- `addSimpleArrayPreview`, as the list of lines it pushes. -/
def addSimpleArrayPreview (xs : JsonList) (maxLines : Nat) : List String :=
  let items := elemsList xs
  let n := items.length
  if n == 0 then ["📦 Empty list"]
  else
    let headLine := if n == 1 then "📦 Contains 1 item"
      else "📦 Contains " ++ natRepr n ++ " items"
    let showAllItems := maxLines > 10
    let maxItemsToShow := if showAllItems then min n 20 else 1
    let objectBranch : JsonValue → List String := fun firstItem =>
      let keys := jsKeys firstItem
      "📋 List of information cards" ::
      (if keys.length > 0 then
        ["   Each card has: " ++ joinSep ", " (keys.take 3) ++
          (if keys.length > 3 then "..." else "")]
       else []) ++
      (if showAllItems then
        (items.enum.take (min maxItemsToShow 10)).filterMap (fun p =>
          match jsFirstField p.2 with
          | some (mainKey, mainValue) =>
              some ("   Card " ++ natRepr (p.1 + 1) ++ ": " ++ makeKeyFriendly mainKey
                ++ " = " ++ formatPrimitiveValue mainValue)
          | none => none)
       else [])
    let body :=
      match items.headD .null with
      | .str _ =>
          "📝 List of text values" ::
          ((items.enum.take maxItemsToShow).filterMap (fun p =>
            match p.2 with
            | .str s =>
                let displayValue := if showAllItems then s
                  else if s.length > 30 then strTake s 30 ++ "..." else s
                some ("   Item " ++ natRepr (p.1 + 1) ++ ": \"" ++ displayValue ++ "\"")
            | _ => none))
      | .num _ =>
          "🔢 List of numbers" ::
          ((items.enum.take maxItemsToShow).filterMap (fun p =>
            match p.2 with
            | .num m => some ("   Number " ++ natRepr (p.1 + 1) ++ ": " ++ intRepr m)
            | _ => none))
      | .arr fxs => objectBranch (.arr fxs)
      | .obj ffs => objectBranch (.obj ffs)
      | _ =>
          "📊 List of various items" ::
          (if showAllItems then
            (items.enum.take maxItemsToShow).map (fun p =>
              "   Item " ++ natRepr (p.1 + 1) ++ ": " ++ formatPrimitiveValue p.2)
           else [])
    let trailing :=
      if !showAllItems && n > 1 then
        ["   (and " ++ natRepr (n - 1) ++ " more similar items)"]
      else if showAllItems && n > maxItemsToShow then
        ["   (and " ++ natRepr (n - maxItemsToShow) ++ " more items...)"]
      else []
    headLine :: body ++ trailing

/-- `addSimpleObjectPreview`, as the list of lines it pushes.  The example
budget `Math.min(4, keys.length, maxLines - 2)` is computed over the
integers because the JavaScript expression can go negative for tiny
budgets (a negative bound runs the loop zero times but still inflates the
trailing "... and N more" count). -/
def addSimpleObjectPreview (kvs : JsonFields) (maxLines : Nat) : List String :=
  let keys := fieldsList kvs
  if keys.length == 0 then ["📂 Empty information card"]
  else
    let headLine := if keys.length == 1 then "📂 Information card with 1 piece of data"
      else "📂 Information card with " ++ natRepr keys.length ++ " pieces of data"
    let showAllProperties := maxLines > 10
    let maxExamples : Int := if showAllProperties then (keys.length : Int)
      else min 4 (min (keys.length : Int) ((maxLines : Int) - 2))
    let examples := (keys.take maxExamples.toNat).map (fun kv =>
      let friendlyName := makeKeyFriendly kv.1
      match kv.2 with
      | .str s =>
          let displayValue := if showAllProperties then s
            else if s.length > 25 then strTake s 25 ++ "..." else s
          "   " ++ friendlyName ++ ": \"" ++ displayValue ++ "\""
      | .num n => "   " ++ friendlyName ++ ": " ++ intRepr n
      | .bool b => "   " ++ friendlyName ++ ": " ++ (if b then "Yes" else "No")
      | .arr axs => "   " ++ friendlyName ++ ": List with " ++ natRepr (jsonListLength axs) ++ " items"
      | .obj sub =>
          let nestedKeys := fieldsList sub
          if showAllProperties && nestedKeys.length ≤ 3 then
            "   " ++ friendlyName ++ ": \x7b" ++
              joinSep ", " (nestedKeys.map (fun nkv =>
                makeKeyFriendly nkv.1 ++ ": " ++ formatPrimitiveValue nkv.2)) ++ "\x7d"
          else "   " ++ friendlyName ++ ": More detailed information"
      | .null => "   " ++ friendlyName ++ ": (empty)")
    headLine :: examples ++
      (if (keys.length : Int) > maxExamples then
        ["   ... and " ++ intRepr ((keys.length : Int) - maxExamples) ++ " more pieces of information"]
       else [])

/-- `createStructuredPreview`: dispatch on the top-level kind, then join the
first `maxLines` generated entries with newlines
(`preview.slice(0, maxLines).join('\n')`). -/
def createStructuredPreview (content : JsonValue) (maxLines : Nat) : String :=
  let preview : List String :=
    match content with
    | .arr xs => addSimpleArrayPreview xs maxLines
    | .obj kvs => addSimpleObjectPreview kvs maxLines
    | _ => ["📄 Simple value: " ++ formatPrimitiveValue content]
  joinSep "\n" (preview.take maxLines)

/-- The public `formatJsonPreview` entry point (the specification's
`renderPreview`).  Its try/catch fallback to `String(content)` is
unreachable here because `createStructuredPreview` is total on the JSON
data model. -/
def formatJsonPreview (content : JsonValue) (maxLines : Nat) : String :=
  createStructuredPreview content maxLines

/-- Number of newline-delimited lines of a string: zero for the empty
string, otherwise one more than the number of newline characters. -/
def lineCount (s : String) : Nat :=
  if s.data = [] then 0 else s.data.count '\n' + 1

/-! Predicates used to state the claims. -/

/-- Is `q` strictly below `p` in the dot-path ordering, i.e. does `q`
extend `p` by at least one further dot-delimited segment? -/
def isBelow (p q : String) : Bool := startsWithList q.data (p.data ++ ['.'])

/-- Number of dot-delimited segments of a path beyond the `$` root
(equals the number of `.` characters). -/
def dotCount (p : String) : Nat := p.data.count '.'

/-- No newline character occurs in the string. -/
def strNoNL (s : String) : Bool := s.data.all (fun c => !(c == '\n'))

mutual

/-- No string value and no object key anywhere in the document contains a
newline character. -/
def noNewlines : JsonValue → Bool
  | .str s => strNoNL s
  | .arr xs => noNewlinesL xs
  | .obj fs => noNewlinesF fs
  | _ => true

/-- List version of `noNewlines`. -/
def noNewlinesL : JsonList → Bool
  | .nil => true
  | .cons v t => noNewlines v && noNewlinesL t

/-- Fields version of `noNewlines`. -/
def noNewlinesF : JsonFields → Bool
  | .nil => true
  | .cons k v t => strNoNL k && noNewlines v && noNewlinesF t

end

mutual

/-- No object key anywhere in the document contains a `.` character. -/
def noDotKeys : JsonValue → Bool
  | .arr xs => noDotKeysL xs
  | .obj fs => noDotKeysF fs
  | _ => true

/-- List version of `noDotKeys`. -/
def noDotKeysL : JsonList → Bool
  | .nil => true
  | .cons v t => noDotKeys v && noDotKeysL t

/-- Fields version of `noDotKeys`. -/
def noDotKeysF : JsonFields → Bool
  | .nil => true
  | .cons k v t => k.data.all (fun c => !(c == '.')) && noDotKeys v && noDotKeysF t

end

/-- Does some field of `fs` carry the key `key`? -/
def keysHas : JsonFields → String → Bool
  | .nil, _ => false
  | .cons k _ t, key => k == key || keysHas t key

/-- Are the keys of one object pairwise distinct?  (Always true of real
JavaScript objects, whose keys are unique by construction.) -/
def keysDistinct : JsonFields → Bool
  | .nil => true
  | .cons k _ t => !(keysHas t k) && keysDistinct t

mutual

/-- Every object in the document has pairwise-distinct keys — the
well-formedness invariant guaranteed by JavaScript object semantics. -/
def wfKeys : JsonValue → Bool
  | .arr xs => wfKeysL xs
  | .obj fs => keysDistinct fs && wfKeysF fs
  | _ => true

/-- List version of `wfKeys`. -/
def wfKeysL : JsonList → Bool
  | .nil => true
  | .cons v t => wfKeys v && wfKeysL t

/-- Fields version of `wfKeys`. -/
def wfKeysF : JsonFields → Bool
  | .nil => true
  | .cons _ v t => wfKeys v && wfKeysF t

end

/-! Basic lemmas about the string helpers. -/

theorem startsWithList_iff : ∀ (l s : List Char), startsWithList l s = true ↔ ∃ r, l = s ++ r := by
  intro l s
  induction s generalizing l with
  | nil => simp [startsWithList]
  | cons b bs ih =>
      cases l with
      | nil => simp [startsWithList]
      | cons a as =>
          simp only [startsWithList, Bool.and_eq_true, beq_iff_eq, ih as]
          constructor
          · rintro ⟨rfl, r, rfl⟩; exact ⟨r, rfl⟩
          · rintro ⟨r, h⟩
            injection h with h1 h2
            exact ⟨h1, r, h2⟩

theorem isBelow_length {p q : String} (h : isBelow p q = true) :
    p.data.length + 1 ≤ q.data.length := by
  unfold isBelow at h
  obtain ⟨r, hr⟩ := (startsWithList_iff _ _).mp h
  have hlen : q.data.length = (p.data ++ ['.']).length + r.length := by
    rw [hr, List.length_append]
  rw [List.length_append] at hlen
  simp only [List.length_singleton] at hlen
  omega

theorem isBelow_self (p : String) : isBelow p p = false := by
  by_contra h
  have h2 : isBelow p p = true := by
    cases hb : isBelow p p with
    | false => exact absurd hb h
    | true => rfl
  have := isBelow_length h2
  omega

theorem isBelow_data {p q : String} (h : isBelow p q = true) :
    ∃ r, q.data = p.data ++ '.' :: r := by
  unfold isBelow at h
  obtain ⟨r, hr⟩ := (startsWithList_iff _ _).mp h
  exact ⟨r, by simpa using hr⟩

theorem strNoNL_append (a b : String) :
    strNoNL (a ++ b) = (strNoNL a && strNoNL b) := by
  simp [strNoNL, String.data_append, List.all_append]

theorem strNoNL_iff (s : String) : strNoNL s = true ↔ '\n' ∉ s.data := by
  simp only [strNoNL, List.all_eq_true, Bool.not_eq_true']
  constructor
  · intro h hmem
    have := h _ hmem
    simp at this
  · intro h c hc
    by_contra hb
    simp only [beq_eq_false_iff_ne, ne_eq, Decidable.not_not] at hb
    exact h (hb ▸ hc)

theorem strNoNL_count {s : String} (h : strNoNL s = true) : s.data.count '\n' = 0 :=
  List.count_eq_zero.mpr ((strNoNL_iff s).mp h)

theorem lineCount_joinSep : ∀ (l : List String), (∀ s ∈ l, strNoNL s = true) →
    lineCount (joinSep "\n" l) ≤ l.length := by
  intro l
  induction l with
  | nil => intro _; simp [joinSep, lineCount]
  | cons s rest ih =>
      intro h
      cases rest with
      | nil =>
          have hc := strNoNL_count (h s (by simp))
          show lineCount (joinSep "\n" [s]) ≤ 1
          unfold joinSep lineCount
          split
          · omega
          · rw [hc]
      | cons s2 rest2 =>
          have hs := strNoNL_count (h s (by simp))
          have ihr := ih (fun x hx => h x (by simp [hx]))
          show lineCount (s ++ "\n" ++ joinSep "\n" (s2 :: rest2)) ≤ (s2 :: rest2).length + 1
          have hdata : (s ++ "\n" ++ joinSep "\n" (s2 :: rest2)).data
              = s.data ++ '\n' :: (joinSep "\n" (s2 :: rest2)).data := by
            simp [String.data_append]
          have hcount : (s ++ "\n" ++ joinSep "\n" (s2 :: rest2)).data.count '\n'
              = (joinSep "\n" (s2 :: rest2)).data.count '\n' + 1 := by
            rw [hdata]
            simp [List.count_append, hs, List.count_cons]
          have hne : (s ++ "\n" ++ joinSep "\n" (s2 :: rest2)).data ≠ [] := by
            rw [hdata]; simp
          unfold lineCount
          rw [if_neg hne, hcount]
          unfold lineCount at ihr
          by_cases hJe : (joinSep "\n" (s2 :: rest2)).data = []
          · have hz : (joinSep "\n" (s2 :: rest2)).data.count '\n' = 0 := by rw [hJe]; rfl
            rw [hz]
            simp only [List.length_cons]
            omega
          · rw [if_neg hJe] at ihr
            simp only [List.length_cons] at ihr ⊢
            omega

theorem strTake_noNL {s : String} (h : strNoNL s = true) (n : Nat) :
    strNoNL (strTake s n) = true := by
  rw [strNoNL_iff] at h ⊢
  intro hmem
  exact h (List.mem_of_mem_take hmem)

theorem digitChar_noNL (m : Nat) : ¬ (digitChar m = '\n') := by
  unfold digitChar
  repeat' split
  all_goals decide

theorem natToChars_noNL : ∀ (fuel n : Nat), '\n' ∉ natToChars fuel n := by
  intro fuel
  induction fuel with
  | zero => intro n; simp [natToChars]
  | succ f ih =>
      intro n
      unfold natToChars
      split
      · simp
        intro h
        exact digitChar_noNL n h.symm
      · simp only [List.mem_append, List.mem_singleton]
        rintro (h | h)
        · exact ih _ h
        · exact digitChar_noNL _ h.symm

theorem natRepr_noNL (n : Nat) : strNoNL (natRepr n) = true := by
  rw [strNoNL_iff]
  exact natToChars_noNL _ _

theorem intRepr_noNL (n : Int) : strNoNL (intRepr n) = true := by
  cases n with
  | ofNat m => exact natRepr_noNL m
  | negSucc m =>
      show strNoNL ("-" ++ natRepr (m + 1)) = true
      rw [strNoNL_append]
      simp [natRepr_noNL]
      decide

theorem joinSep_noNL {sep : String} (hsep : strNoNL sep = true) :
    ∀ (l : List String), (∀ s ∈ l, strNoNL s = true) → strNoNL (joinSep sep l) = true := by
  intro l
  induction l with
  | nil => intro _; rfl
  | cons s rest ih =>
      intro h
      cases rest with
      | nil => exact h s (by simp [joinSep])
      | cons s2 rest2 =>
          show strNoNL (s ++ sep ++ joinSep sep (s2 :: rest2)) = true
          rw [strNoNL_append, strNoNL_append]
          simp [h s (by simp), hsep, ih (fun x hx => h x (by simp [hx]))]

/-! Newline-freeness of the strings the renderer builds, given
newline-free string content. -/

theorem lookupUpper_mem {c u : Char} : ∀ {l : List (Char × Char)},
    lookupUpper c l = some u → u ∈ l.map Prod.snd := by
  intro l
  induction l with
  | nil => intro h; simp [lookupUpper] at h
  | cons p t ih =>
      intro h
      obtain ⟨lo, up⟩ := p
      unfold lookupUpper at h
      split at h
      · injection h with h; simp [h]
      · simpa using Or.inr (ih h)

theorem asciiUpper_noNL {c : Char} (h : ¬ c = '\n') : ¬ asciiUpper c = '\n' := by
  unfold asciiUpper
  cases hl : lookupUpper c lowerUpperPairs with
  | none => exact h
  | some u =>
      have hm := lookupUpper_mem hl
      have hall : ∀ x ∈ lowerUpperPairs.map Prod.snd, ¬ x = '\n' := by decide
      exact hall u hm

theorem spaceBeforeCaps_noNL {l : List Char} (h : '\n' ∉ l) : '\n' ∉ spaceBeforeCaps l := by
  unfold spaceBeforeCaps
  intro hmem
  obtain ⟨piece, hpiece, hin⟩ := List.mem_flatten.mp hmem
  obtain ⟨c, hc, hceq⟩ := List.mem_map.mp hpiece
  have hcne : ¬ c = '\n' := fun e => h (e ▸ hc)
  subst hceq
  split at hin
  · rcases List.mem_cons.mp hin with h1 | h1
    · exact absurd h1 (by decide)
    · exact hcne (List.mem_singleton.mp h1).symm
  · exact hcne (List.mem_singleton.mp hin).symm

theorem underscores_noNL {l : List Char} (h : '\n' ∉ l) : '\n' ∉ underscoresToSpaces l := by
  unfold underscoresToSpaces
  intro hmem
  obtain ⟨c, hc, hceq⟩ := List.mem_map.mp hmem
  split at hceq
  · exact absurd hceq.symm (by decide)
  · exact h (hceq ▸ hc)

theorem upperFirst_noNL {l : List Char} (h : '\n' ∉ l) : '\n' ∉ upperFirst l := by
  cases l with
  | nil => simp [upperFirst]
  | cons c t =>
      have hc : ¬ c = '\n' := fun e => h (by simp [e])
      have ht : '\n' ∉ t := fun e => h (by simp [e])
      show '\n' ∉ (if (c == '\n') = true then c :: t else asciiUpper c :: t)
      split
      · exact h
      · intro hmem
        rcases List.mem_cons.mp hmem with h1 | h1
        · exact asciiUpper_noNL hc h1.symm
        · exact ht h1

theorem trimEnds_noNL {s : String} (h : '\n' ∉ s.data) : '\n' ∉ (trimEnds s).data := by
  unfold trimEnds
  intro hmem
  simp only [String.mk] at hmem
  have h1 : '\n' ∈ ((s.data.dropWhile Char.isWhitespace).reverse.dropWhile Char.isWhitespace) := by
    simpa using hmem
  have h2 := (List.dropWhile_sublist Char.isWhitespace (l := (s.data.dropWhile Char.isWhitespace).reverse)).mem h1
  have h3 : '\n' ∈ s.data.dropWhile Char.isWhitespace := by simpa using h2
  exact h ((List.dropWhile_sublist Char.isWhitespace (l := s.data)).mem h3)

theorem titleize_noNL {s : String} (h : strNoNL s = true) : strNoNL (titleize s) = true := by
  rw [strNoNL_iff] at h ⊢
  unfold titleize
  exact trimEnds_noNL (upperFirst_noNL (underscores_noNL (spaceBeforeCaps_noNL h)))

theorem lookupFriendly_mem {key v : String} : ∀ {l : List (String × String)},
    lookupFriendly key l = some v → v ∈ l.map Prod.snd := by
  intro l
  induction l with
  | nil => intro h; simp [lookupFriendly] at h
  | cons p t ih =>
      intro h
      obtain ⟨k, w⟩ := p
      unfold lookupFriendly at h
      split at h
      · injection h with h; simp [h]
      · simpa using Or.inr (ih h)

theorem makeKeyFriendly_noNL {key : String} (h : strNoNL key = true) :
    strNoNL (makeKeyFriendly key) = true := by
  unfold makeKeyFriendly
  cases hl : lookupFriendly key friendlyMappings with
  | none => exact titleize_noNL h
  | some v =>
      have hm := lookupFriendly_mem hl
      have hall : ∀ x ∈ friendlyMappings.map Prod.snd, strNoNL x = true := by decide
      exact hall v hm

theorem noNewlinesL_elem : ∀ (xs : JsonList), noNewlinesL xs = true →
    ∀ v ∈ elemsList xs, noNewlines v = true
  | .nil => by intro _ v hv; simp [elemsList] at hv
  | .cons w t => by
      intro h v hv
      simp only [noNewlinesL, Bool.and_eq_true] at h
      rcases List.mem_cons.mp (by simpa [elemsList] using hv) with rfl | hm
      · exact h.1
      · exact noNewlinesL_elem t h.2 v hm

theorem noNewlinesF_field : ∀ (fs : JsonFields), noNewlinesF fs = true →
    ∀ kv ∈ fieldsList fs, strNoNL kv.1 = true ∧ noNewlines kv.2 = true
  | .nil => by intro _ kv hkv; simp [fieldsList] at hkv
  | .cons k w t => by
      intro h kv hkv
      simp only [noNewlinesF, Bool.and_eq_true] at h
      rcases List.mem_cons.mp (by simpa [fieldsList] using hkv) with rfl | hm
      · exact ⟨h.1.1, h.1.2⟩
      · exact noNewlinesF_field t h.2 kv hm

mutual

theorem jsToString_noNL : ∀ (v : JsonValue), noNewlines v = true → strNoNL (jsToString v) = true
  | .null => fun _ => rfl
  | .bool b => by cases b <;> intro _ <;> rfl
  | .num n => fun _ => intRepr_noNL n
  | .str s => fun h => by simpa [noNewlines, jsToString] using h
  | .arr xs => by
      intro h
      show strNoNL (joinSep "," (jsToStringElems xs)) = true
      exact joinSep_noNL (by decide) _ (jsToStringElems_noNL xs (by simpa [noNewlines] using h))
  | .obj fs => fun _ => rfl

theorem jsToStringElems_noNL : ∀ (xs : JsonList), noNewlinesL xs = true →
    ∀ s ∈ jsToStringElems xs, strNoNL s = true
  | .nil => by intro _ s hs; simp [jsToStringElems] at hs
  | .cons v t => by
      intro h s hs
      simp only [noNewlinesL, Bool.and_eq_true] at h
      rcases List.mem_cons.mp (by simpa [jsToStringElems] using hs) with rfl | hm
      · cases v with
        | null => rfl
        | bool b => exact jsToString_noNL (.bool b) h.1
        | num n => exact jsToString_noNL (.num n) h.1
        | str s2 => exact jsToString_noNL (.str s2) h.1
        | arr xs2 => exact jsToString_noNL (.arr xs2) h.1
        | obj fs2 => exact jsToString_noNL (.obj fs2) h.1
      · exact jsToStringElems_noNL t h.2 s hm

end

theorem formatPrimitiveValue_noNL (v : JsonValue) (h : noNewlines v = true) :
    strNoNL (formatPrimitiveValue v) = true := by
  cases v with
  | str s =>
      have hs : strNoNL s = true := by simpa [noNewlines] using h
      show strNoNL (if s.length > 30 then "\"" ++ strTake s 27 ++ "...\"" else "\"" ++ s ++ "\"") = true
      split
      · rw [strNoNL_append, strNoNL_append, strTake_noNL hs]
        decide
      · rw [strNoNL_append, strNoNL_append, hs]
        decide
  | num n => exact intRepr_noNL n
  | bool b => cases b <;> rfl
  | null => rfl
  | arr xs => exact jsToString_noNL _ h
  | obj fs => exact jsToString_noNL _ h

theorem strNoNL_app2 {a b : String} (ha : strNoNL a = true) (hb : strNoNL b = true) :
    strNoNL (a ++ b) = true := by rw [strNoNL_append, ha, hb]; rfl

theorem mem_of_mem_enum {α : Type} {l : List α} {p : Nat × α} (h : p ∈ l.enum) : p.2 ∈ l := by
  rw [List.enum_eq_zip_range] at h
  obtain ⟨x, y⟩ := p
  exact (List.of_mem_zip h).2

theorem headD_mem {α : Type} {l : List α} {d : α} (h : l ≠ []) : l.headD d ∈ l := by
  cases l with
  | nil => exact absurd rfl h
  | cons a t => simp [List.headD]

theorem jsFirstField_noNL {v : JsonValue} {k : String} {w : JsonValue}
    (hv : noNewlines v = true) (h : jsFirstField v = some (k, w)) :
    strNoNL k = true ∧ noNewlines w = true := by
  cases v with
  | obj fs =>
      cases fs with
      | nil => simp [jsFirstField] at h
      | cons k2 v2 t =>
          simp only [jsFirstField, Option.some_inj, Prod.mk.injEq] at h
          rw [← h.1, ← h.2]
          exact noNewlinesF_field (.cons k2 v2 t) (by simpa [noNewlines] using hv)
            (k2, v2) (by simp [fieldsList])
  | arr xs =>
      cases xs with
      | nil => simp [jsFirstField] at h
      | cons x t =>
          simp only [jsFirstField, Option.some_inj, Prod.mk.injEq] at h
          rw [← h.1, ← h.2]
          refine ⟨by decide, ?_⟩
          exact noNewlinesL_elem (.cons x t) (by simpa [noNewlines] using hv) x (by simp [elemsList])
  | null => simp [jsFirstField] at h
  | bool b => simp [jsFirstField] at h
  | num n => simp [jsFirstField] at h
  | str s => simp [jsFirstField] at h

theorem jsKeys_noNL {v : JsonValue} (hv : noNewlines v = true) :
    ∀ k ∈ jsKeys v, strNoNL k = true := by
  cases v with
  | obj fs =>
      intro k hk
      simp only [jsKeys] at hk
      obtain ⟨⟨k2, v2⟩, hmem, rfl⟩ := List.mem_map.mp hk
      exact (noNewlinesF_field fs (by simpa [noNewlines] using hv) _ hmem).1
  | arr xs =>
      intro k hk
      simp only [jsKeys] at hk
      obtain ⟨i, _, rfl⟩ := List.mem_map.mp hk
      exact natRepr_noNL i
  | null => intro k hk; simp [jsKeys] at hk
  | bool b => intro k hk; simp [jsKeys] at hk
  | num n => intro k hk; simp [jsKeys] at hk
  | str s => intro k hk; simp [jsKeys] at hk

theorem mem_ite_nil {α : Type} {c : Prop} [Decidable c] {s : α} {l : List α}
    (h : s ∈ (if c then l else [])) : s ∈ l := by
  split at h
  · exact h
  · simp at h

theorem mem_ite_singleton {α : Type} {c : Prop} [Decidable c] {s a : α}
    (h : s ∈ (if c then [a] else [])) : s = a := by
  exact List.mem_singleton.mp (mem_ite_nil h)

theorem mem_ite_singletons {c1 c2 : Prop} [Decidable c1] [Decidable c2] {s a b : String}
    (h : s ∈ (if c1 then [a] else if c2 then [b] else [])) : s = a ∨ s = b := by
  by_cases h1 : c1
  · rw [if_pos h1] at h
    exact Or.inl (List.mem_singleton.mp h)
  · rw [if_neg h1] at h
    exact Or.inr (mem_ite_singleton h)

theorem arrayPreview_noNL (xs : JsonList) (maxLines : Nat) (h : noNewlinesL xs = true) :
    ∀ s ∈ addSimpleArrayPreview xs maxLines, strNoNL s = true := by
  have helem : ∀ v ∈ elemsList xs, noNewlines v = true := noNewlinesL_elem xs h
  intro s hs
  dsimp only [addSimpleArrayPreview] at hs
  split at hs
  · rw [List.mem_singleton.mp hs]; decide
  · rename_i hne0
    have hnonempty : elemsList xs ≠ [] := by
      intro he; rw [he] at hne0; exact hne0 rfl
    have hfirst : noNewlines ((elemsList xs).headD JsonValue.null) = true :=
      helem _ (headD_mem hnonempty)
    rcases List.mem_cons.mp hs with rfl | hs2
    · split
      · decide
      · exact strNoNL_app2 (strNoNL_app2 (by decide) (natRepr_noNL _)) (by decide)
    · rcases List.mem_append.mp hs2 with hb | ht
      · -- the kind-specific body
        cases hhead : (elemsList xs).headD JsonValue.null with
        | str s2 =>
            rw [hhead] at hb
            rcases List.mem_cons.mp hb with rfl | hbf
            · decide
            · obtain ⟨⟨i, item⟩, hpmem, hfeq⟩ := List.mem_filterMap.mp hbf
              have hitem : noNewlines item = true :=
                helem item (mem_of_mem_enum (List.mem_of_mem_take hpmem))
              cases item with
              | str s3 =>
                  have hs3 : strNoNL s3 = true := by simpa [noNewlines] using hitem
                  simp only [Option.some_inj] at hfeq
                  rw [← hfeq]
                  refine strNoNL_app2 (strNoNL_app2 (strNoNL_app2
                    (strNoNL_app2 (by decide) (natRepr_noNL _)) (by decide)) ?_) (by decide)
                  split
                  · exact hs3
                  · split
                    · exact strNoNL_app2 (strTake_noNL hs3 30) (by decide)
                    · exact hs3
              | null => simp at hfeq
              | bool b => simp at hfeq
              | num m => simp at hfeq
              | arr a2 => simp at hfeq
              | obj f2 => simp at hfeq
        | num m =>
            rw [hhead] at hb
            rcases List.mem_cons.mp hb with rfl | hbf
            · decide
            · obtain ⟨⟨i, item⟩, hpmem, hfeq⟩ := List.mem_filterMap.mp hbf
              cases item with
              | num m2 =>
                  simp only [Option.some_inj] at hfeq
                  rw [← hfeq]
                  exact strNoNL_app2 (strNoNL_app2 (strNoNL_app2 (by decide)
                    (natRepr_noNL _)) (by decide)) (intRepr_noNL _)
              | null => simp at hfeq
              | bool b => simp at hfeq
              | str s3 => simp at hfeq
              | arr a2 => simp at hfeq
              | obj f2 => simp at hfeq
        | arr fxs =>
            rw [hhead] at hb
            rw [hhead] at hfirst
            rcases List.mem_cons.mp hb with rfl | hb2
            · decide
            · rcases List.mem_append.mp hb2 with hk | hcard
              · rcases mem_ite_singleton hk with rfl
                refine strNoNL_app2 (strNoNL_app2 (by decide) ?_) ?_
                · exact joinSep_noNL (by decide) _
                    (fun x hx => jsKeys_noNL hfirst x (List.mem_of_mem_take hx))
                · split <;> decide
              · obtain ⟨⟨i, item⟩, hpmem, hgeq⟩ := List.mem_filterMap.mp (mem_ite_nil hcard)
                have hitem : noNewlines item = true :=
                  helem item (mem_of_mem_enum (List.mem_of_mem_take hpmem))
                cases hff : jsFirstField item with
                | none => rw [hff] at hgeq; simp at hgeq
                | some kv =>
                    obtain ⟨mk, mv⟩ := kv
                    rw [hff] at hgeq
                    simp only [Option.some_inj] at hgeq
                    rw [← hgeq]
                    have hmk := jsFirstField_noNL hitem hff
                    exact strNoNL_app2 (strNoNL_app2 (strNoNL_app2 (strNoNL_app2
                      (strNoNL_app2 (by decide) (natRepr_noNL _)) (by decide))
                      (makeKeyFriendly_noNL hmk.1)) (by decide))
                      (formatPrimitiveValue_noNL _ hmk.2)
        | obj ffs =>
            rw [hhead] at hb
            rw [hhead] at hfirst
            rcases List.mem_cons.mp hb with rfl | hb2
            · decide
            · rcases List.mem_append.mp hb2 with hk | hcard
              · rcases mem_ite_singleton hk with rfl
                refine strNoNL_app2 (strNoNL_app2 (by decide) ?_) ?_
                · exact joinSep_noNL (by decide) _
                    (fun x hx => jsKeys_noNL hfirst x (List.mem_of_mem_take hx))
                · split <;> decide
              · obtain ⟨⟨i, item⟩, hpmem, hgeq⟩ := List.mem_filterMap.mp (mem_ite_nil hcard)
                have hitem : noNewlines item = true :=
                  helem item (mem_of_mem_enum (List.mem_of_mem_take hpmem))
                cases hff : jsFirstField item with
                | none => rw [hff] at hgeq; simp at hgeq
                | some kv =>
                    obtain ⟨mk, mv⟩ := kv
                    rw [hff] at hgeq
                    simp only [Option.some_inj] at hgeq
                    rw [← hgeq]
                    have hmk := jsFirstField_noNL hitem hff
                    exact strNoNL_app2 (strNoNL_app2 (strNoNL_app2 (strNoNL_app2
                      (strNoNL_app2 (by decide) (natRepr_noNL _)) (by decide))
                      (makeKeyFriendly_noNL hmk.1)) (by decide))
                      (formatPrimitiveValue_noNL _ hmk.2)
        | null =>
            rw [hhead] at hb
            rcases List.mem_cons.mp hb with rfl | hb2
            · decide
            · obtain ⟨⟨i, item⟩, hpmem, heq⟩ := List.mem_map.mp (mem_ite_nil hb2)
              have hitem : noNewlines item = true :=
                helem item (mem_of_mem_enum (List.mem_of_mem_take hpmem))
              rw [← heq]
              exact strNoNL_app2 (strNoNL_app2 (strNoNL_app2 (by decide)
                (natRepr_noNL _)) (by decide)) (formatPrimitiveValue_noNL _ hitem)
        | bool b =>
            rw [hhead] at hb
            rcases List.mem_cons.mp hb with rfl | hb2
            · decide
            · obtain ⟨⟨i, item⟩, hpmem, heq⟩ := List.mem_map.mp (mem_ite_nil hb2)
              have hitem : noNewlines item = true :=
                helem item (mem_of_mem_enum (List.mem_of_mem_take hpmem))
              rw [← heq]
              exact strNoNL_app2 (strNoNL_app2 (strNoNL_app2 (by decide)
                (natRepr_noNL _)) (by decide)) (formatPrimitiveValue_noNL _ hitem)
      · -- the trailing "and N more" notes
        rcases mem_ite_singletons ht with rfl | rfl <;>
          exact strNoNL_app2 (strNoNL_app2 (by decide) (natRepr_noNL _)) (by decide)

theorem objPreview_noNL (kvs : JsonFields) (maxLines : Nat) (h : noNewlinesF kvs = true) :
    ∀ s ∈ addSimpleObjectPreview kvs maxLines, strNoNL s = true := by
  have hfield : ∀ kv ∈ fieldsList kvs, strNoNL kv.1 = true ∧ noNewlines kv.2 = true :=
    noNewlinesF_field kvs h
  intro s hs
  dsimp only [addSimpleObjectPreview] at hs
  split at hs
  · rw [List.mem_singleton.mp hs]; decide
  · rcases List.mem_cons.mp hs with rfl | hs2
    · split
      · decide
      · exact strNoNL_app2 (strNoNL_app2 (by decide) (natRepr_noNL _)) (by decide)
    · rcases List.mem_append.mp hs2 with hex | htr
      · obtain ⟨⟨key, value⟩, hkvmem, heq⟩ := List.mem_map.mp hex
        have hkv := hfield (key, value) (List.mem_of_mem_take hkvmem)
        have hfn : strNoNL (makeKeyFriendly key) = true := makeKeyFriendly_noNL hkv.1
        rw [← heq]
        cases value with
        | str s2 =>
            dsimp only
            have hsv : strNoNL s2 = true := by simpa [noNewlines] using hkv.2
            refine strNoNL_app2 (strNoNL_app2 (strNoNL_app2
              (strNoNL_app2 (by decide) hfn) (by decide)) ?_) (by decide)
            split
            · exact hsv
            · split
              · exact strNoNL_app2 (strTake_noNL hsv 25) (by decide)
              · exact hsv
        | num n =>
            dsimp only
            exact strNoNL_app2 (strNoNL_app2 (strNoNL_app2 (by decide) hfn)
              (by decide)) (intRepr_noNL n)
        | bool b =>
            dsimp only
            refine strNoNL_app2 (strNoNL_app2 (strNoNL_app2 (by decide) hfn) (by decide)) ?_
            cases b <;> decide
        | arr axs =>
            dsimp only
            exact strNoNL_app2 (strNoNL_app2 (strNoNL_app2 (strNoNL_app2 (by decide) hfn)
              (by decide)) (natRepr_noNL _)) (by decide)
        | obj sub =>
            dsimp only
            have hsub : ∀ kv2 ∈ fieldsList sub, strNoNL kv2.1 = true ∧ noNewlines kv2.2 = true :=
              noNewlinesF_field sub (by simpa [noNewlines] using hkv.2)
            split
            · refine strNoNL_app2 (strNoNL_app2 (strNoNL_app2
                (strNoNL_app2 (by decide) hfn) (by decide)) ?_) (by decide)
              refine joinSep_noNL (by decide) _ ?_
              intro x hx
              obtain ⟨⟨k2, v2⟩, hm2, heq2⟩ := List.mem_map.mp hx
              rw [← heq2]
              exact strNoNL_app2 (strNoNL_app2 (makeKeyFriendly_noNL (hsub _ hm2).1)
                (by decide)) (formatPrimitiveValue_noNL _ (hsub _ hm2).2)
            · exact strNoNL_app2 (strNoNL_app2 (by decide) hfn) (by decide)
        | null =>
            dsimp only
            exact strNoNL_app2 (strNoNL_app2 (by decide) hfn) (by decide)
      · rcases mem_ite_singleton htr with rfl
        exact strNoNL_app2 (strNoNL_app2 (by decide) (intRepr_noNL _)) (by decide)

/-! Agreement of the fallible extractor with the total model, and the
characterization of its only failure path. -/

theorem generateIdE_ok {path : String} (h : btoaOk path = true) :
    generateIdE path = .ok (generateId path) := by
  unfold generateIdE jsBtoa
  rw [if_pos h]
  rfl

theorem generateIdE_err {path : String} (h : btoaOk path = false) :
    generateIdE path = .error "InvalidCharacterError" := by
  unfold generateIdE jsBtoa
  rw [h]
  rfl

mutual

theorem extractE_ok : ∀ (v : JsonValue) (path : String) (depth : Nat),
    (∀ c ∈ extractCards v path depth, btoaOk c.path = true) →
    extractCardsE v path depth = .ok (extractCards v path depth)
  | .null, path, depth => by
      intro _
      unfold extractCards extractCardsE
      split <;> rfl
  | .bool b, path, depth => by
      intro _
      unfold extractCards extractCardsE
      split <;> rfl
  | .num n, path, depth => by
      intro _
      unfold extractCards extractCardsE
      split <;> rfl
  | .str s, path, depth => by
      intro _
      unfold extractCards extractCardsE
      split <;> rfl
  | .arr xs, path, depth => by
      intro hall
      unfold extractCards at hall ⊢
      unfold extractCardsE
      split
      · rfl
      · rename_i hd
        rw [if_neg hd] at hall
        have hp : btoaOk path = true := hall (arrayCardAt xs path) (by simp)
        rw [generateIdE_ok hp]
        rfl
  | .obj fs, path, depth => by
      intro hall
      unfold extractCards at hall ⊢
      unfold extractCardsE
      split
      · rfl
      · rename_i hd
        rw [if_neg hd] at hall
        dsimp only at hall ⊢
        have hch : extractChildrenE fs path depth = .ok (extractChildren fs path depth) :=
          extractE_okF fs path depth (fun c hc => hall c (List.mem_append.mpr (Or.inr hc)))
        by_cases hlen : fieldsLength fs > 0
        · have hp : btoaOk path = true := by
            have := hall (objCardAt fs path)
              (List.mem_append.mpr (Or.inl (by rw [if_pos hlen]; simp)))
            exact this
          rw [if_pos hlen, if_pos hlen, generateIdE_ok hp, hch]
          rfl
        · rw [if_neg hlen, if_neg hlen, hch]

theorem extractE_okF : ∀ (fs : JsonFields) (path : String) (depth : Nat),
    (∀ c ∈ extractChildren fs path depth, btoaOk c.path = true) →
    extractChildrenE fs path depth = .ok (extractChildren fs path depth)
  | .nil, path, depth => by intro _; rfl
  | .cons key value rest, path, depth => by
      intro hall
      unfold extractChildren at hall ⊢
      unfold extractChildrenE
      have hrest : extractChildrenE rest path depth = .ok (extractChildren rest path depth) :=
        extractE_okF rest path depth (fun c hc => hall c (List.mem_append.mpr (Or.inr hc)))
      by_cases hcond : (isObjectLike value || isArray value) = true
      · have hhead : extractCardsE value (childPath path key) (depth + 1)
            = .ok (extractCards value (childPath path key) (depth + 1)) :=
          extractE_ok value (childPath path key) (depth + 1)
            (fun c hc => hall c (List.mem_append.mpr (Or.inl (by rw [if_pos hcond]; exact hc))))
        rw [if_pos hcond, if_pos hcond, hhead, hrest]
      · rw [if_neg hcond, if_neg hcond, hrest]

end

mutual

theorem extractE_err : ∀ (v : JsonValue) (path : String) (depth : Nat),
    (∃ c ∈ extractCards v path depth, btoaOk c.path = false) →
    extractCardsE v path depth = .error "InvalidCharacterError"
  | .null, path, depth => by
      rintro ⟨c, hc, _⟩
      unfold extractCards at hc
      split at hc <;> simp at hc
  | .bool b, path, depth => by
      rintro ⟨c, hc, _⟩
      unfold extractCards at hc
      split at hc <;> simp at hc
  | .num n, path, depth => by
      rintro ⟨c, hc, _⟩
      unfold extractCards at hc
      split at hc <;> simp at hc
  | .str s, path, depth => by
      rintro ⟨c, hc, _⟩
      unfold extractCards at hc
      split at hc <;> simp at hc
  | .arr xs, path, depth => by
      rintro ⟨c, hc, hbad⟩
      unfold extractCards at hc
      unfold extractCardsE
      split at hc
      · simp at hc
      · rename_i hd
        rw [if_neg hd]
        dsimp only at hc ⊢
        rw [List.mem_singleton.mp hc] at hbad
        rw [generateIdE_err (show btoaOk path = false from hbad)]
  | .obj fs, path, depth => by
      rintro ⟨c, hc, hbad⟩
      unfold extractCards at hc
      unfold extractCardsE
      split at hc
      · simp at hc
      · rename_i hd
        rw [if_neg hd]
        dsimp only at hc ⊢
        rcases List.mem_append.mp hc with hown | hchild
        · have hceq := mem_ite_singleton hown
          have hlen : fieldsLength fs > 0 := by
            by_contra hno
            rw [if_neg hno] at hown
            simp at hown
          rw [hceq] at hbad
          rw [if_pos hlen, generateIdE_err (show btoaOk path = false from hbad)]
        · by_cases hallhead : ∀ c2 ∈ extractChildren fs path depth, btoaOk c2.path = true
          · exact absurd (hallhead c hchild) (by rw [hbad]; decide)
          · have hex : ∃ c2 ∈ extractChildren fs path depth, btoaOk c2.path = false := by
              push_neg at hallhead
              obtain ⟨c2, hc2, hb2⟩ := hallhead
              exact ⟨c2, hc2, by
                cases hv : btoaOk c2.path
                · rfl
                · exact absurd hv hb2⟩
            have hrec := extractE_errF fs path depth hex
            by_cases hlen : fieldsLength fs > 0
            · by_cases hp : btoaOk path = true
              · rw [if_pos hlen, generateIdE_ok hp, hrec]
              · rw [if_pos hlen,
                  generateIdE_err (by
                    cases hv : btoaOk path
                    · rfl
                    · exact absurd hv hp)]
            · rw [if_neg hlen, hrec]

theorem extractE_errF : ∀ (fs : JsonFields) (path : String) (depth : Nat),
    (∃ c ∈ extractChildren fs path depth, btoaOk c.path = false) →
    extractChildrenE fs path depth = .error "InvalidCharacterError"
  | .nil, path, depth => by
      rintro ⟨c, hc, _⟩
      simp [extractChildren] at hc
  | .cons key value rest, path, depth => by
      rintro ⟨c, hc, hbad⟩
      unfold extractChildren at hc
      unfold extractChildrenE
      rcases List.mem_append.mp hc with hhead | hrest
      · by_cases hcond : (isObjectLike value || isArray value) = true
        · rw [if_pos hcond] at hhead
          have hrec := extractE_err value (childPath path key) (depth + 1) ⟨c, hhead, hbad⟩
          rw [if_pos hcond, hrec]
        · rw [if_neg hcond] at hhead
          simp at hhead
      · by_cases hcond : (isObjectLike value || isArray value) = true
        · by_cases hallhead : ∀ c2 ∈ extractCards value (childPath path key) (depth + 1),
              btoaOk c2.path = true
          · have hok := extractE_ok value (childPath path key) (depth + 1) hallhead
            have hrec := extractE_errF rest path depth ⟨c, hrest, hbad⟩
            rw [if_pos hcond, hok, hrec]
          · have hex : ∃ c2 ∈ extractCards value (childPath path key) (depth + 1),
                btoaOk c2.path = false := by
              push_neg at hallhead
              obtain ⟨c2, hc2, hb2⟩ := hallhead
              exact ⟨c2, hc2, by
                cases hv : btoaOk c2.path
                · rfl
                · exact absurd hv hb2⟩
            have hrec := extractE_err value (childPath path key) (depth + 1) hex
            rw [if_pos hcond, hrec]
        · have hrec := extractE_errF rest path depth ⟨c, hrest, hbad⟩
          rw [if_neg hcond, hrec]

end

/-- Claim C1, counterexample: the line bound fails as universally stated.
At the string value "x\ny" (which contains a newline character) with
budget `maxLines = 1`, the renderer emits one preview entry whose embedded
newline makes the returned string two lines long, exceeding the budget. -/
theorem claim_c1_counterexample :
    ¬ (lineCount (formatJsonPreview (JsonValue.str "x\ny") 1) ≤ 1) := by decide

/-- Claim C1 (amended): the renderer truncates the list of generated
preview entries to `maxLines` before joining them with newlines, so for
every JsonValue none of whose string values or object keys contains a
newline character, and every budget (including 0 and 1) and every
top-level kind, the returned string has at most `maxLines`
newline-delimited lines.  (Embedded newlines in string content are the
only way to exceed the budget, as the counterexample shows.) -/
theorem claim_c1_line_bound (v : JsonValue) (maxLines : Nat) (h : noNewlines v = true) :
    lineCount (formatJsonPreview v maxLines) ≤ maxLines := by
  unfold formatJsonPreview createStructuredPreview
  have hbound : ∀ (l : List String), (∀ s ∈ l, strNoNL s = true) →
      lineCount (joinSep "\n" (l.take maxLines)) ≤ maxLines := by
    intro l hl
    have h1 : lineCount (joinSep "\n" (l.take maxLines)) ≤ (l.take maxLines).length :=
      lineCount_joinSep _ (fun s hs => hl s (List.mem_of_mem_take hs))
    have h2 : (l.take maxLines).length ≤ maxLines := by
      rw [List.length_take]; exact min_le_left _ _
    omega
  cases v with
  | arr xs => exact hbound _ (arrayPreview_noNL xs maxLines (by simpa [noNewlines] using h))
  | obj fs => exact hbound _ (objPreview_noNL fs maxLines (by simpa [noNewlines] using h))
  | null =>
      exact hbound _ (by
        intro s hs
        rw [List.mem_singleton.mp hs]
        exact strNoNL_app2 (by decide) (formatPrimitiveValue_noNL _ h))
  | bool b =>
      exact hbound _ (by
        intro s hs
        rw [List.mem_singleton.mp hs]
        exact strNoNL_app2 (by decide) (formatPrimitiveValue_noNL _ h))
  | num n =>
      exact hbound _ (by
        intro s hs
        rw [List.mem_singleton.mp hs]
        exact strNoNL_app2 (by decide) (formatPrimitiveValue_noNL _ h))
  | str s2 =>
      exact hbound _ (by
        intro s hs
        rw [List.mem_singleton.mp hs]
        exact strNoNL_app2 (by decide) (formatPrimitiveValue_noNL _ h))

/-- Claim C1, witness: the line bound applied to a concrete newline-free
document at the degenerate budgets 0 and 1. -/
theorem claim_c1_witness :
    noNewlines (JsonValue.obj (ofFields [("userId", JsonValue.num 7)])) = true ∧
    lineCount (formatJsonPreview (JsonValue.obj (ofFields [("userId", JsonValue.num 7)])) 0) ≤ 0 ∧
    lineCount (formatJsonPreview (JsonValue.obj (ofFields [("userId", JsonValue.num 7)])) 1) ≤ 1 :=
  ⟨by decide,
   claim_c1_line_bound (JsonValue.obj (ofFields [("userId", JsonValue.num 7)])) 0 (by decide),
   claim_c1_line_bound (JsonValue.obj (ofFields [("userId", JsonValue.num 7)])) 1 (by decide)⟩

/-- Claim C2, counterexample: both directions of the claimed equivalence
fail.  At the claim's designated failing input — a primitive root (`null`)
with no supplied label — the extractor does not raise an `InvalidInput`
error (no such check exists); it returns a normal one-card result whose
`title` is the absent label.  Conversely the extractor is not error-free:
at `{"☃": [1]}` the `btoa` call inside `generateId` raises
`InvalidCharacterError`, because the card path `$.☃` contains a character
above U+00FF. -/
theorem claim_c2_counterexample :
    parseJsonToCardsE JsonValue.null none = .ok [primitiveRootCard JsonValue.null none] ∧
    parseJsonToCardsE
      (JsonValue.obj (ofFields [("☃", JsonValue.arr (ofList [JsonValue.num 1]))]))
      (some "f") = .error "InvalidCharacterError" := ⟨rfl, rfl⟩

/-- Claim C2 (amended): the extractor performs no label validation and has
no `InvalidInput` failure path; its only failure is inherited from `btoa`
in `generateId`.  For every JsonValue and label: (1) if every emitted
card's path is Latin-1 (`btoaOk`), extraction returns exactly the usual
card list; (2) extraction raises `InvalidCharacterError` iff some emitted
card's path contains a character above U+00FF; (3) the label influences
nothing but the title of the primitive-root card — the card paths are
identical whatever the label; (4) a primitive root always yields exactly
the single root card, never an error. -/
theorem claim_c2_failure_characterization (v : JsonValue) (label : Option String) :
    ((∀ c ∈ parseJsonToCards v label, btoaOk c.path = true) →
      parseJsonToCardsE v label = .ok (parseJsonToCards v label)) ∧
    (parseJsonToCardsE v label = .error "InvalidCharacterError" ↔
      ∃ c ∈ parseJsonToCards v label, btoaOk c.path = false) ∧
    ((parseJsonToCards v label).map (fun c => c.path)
      = (parseJsonToCards v none).map (fun c => c.path)) ∧
    (isObjectLike v = false → parseJsonToCardsE v label = .ok [primitiveRootCard v label]) := by
  have hok : (∀ c ∈ parseJsonToCards v label, btoaOk c.path = true) →
      parseJsonToCardsE v label = .ok (parseJsonToCards v label) := by
    intro hall
    unfold parseJsonToCards at hall
    unfold parseJsonToCards parseJsonToCardsE
    by_cases hcond : (!isObjectLike v) = true
    · rw [if_pos hcond, if_pos hcond]
    · rw [if_neg hcond] at hall
      rw [if_neg hcond, if_neg hcond]
      exact extractE_ok v "$" 0 hall
  refine ⟨hok, ⟨?_, ?_⟩, ?_, ?_⟩
  · intro he
    by_contra hno
    push_neg at hno
    have hall : ∀ c ∈ parseJsonToCards v label, btoaOk c.path = true := by
      intro c hc
      cases hv : btoaOk c.path
      · exact absurd hv (hno c hc)
      · rfl
    rw [hok hall] at he
    exact Except.noConfusion he
  · rintro ⟨c, hc, hbad⟩
    unfold parseJsonToCards at hc
    unfold parseJsonToCardsE
    by_cases hcond : (!isObjectLike v) = true
    · rw [if_pos hcond] at hc
      rw [List.mem_singleton.mp hc] at hbad
      exact absurd (show btoaOk "$" = false from hbad) (by decide)
    · rw [if_neg hcond] at hc
      rw [if_neg hcond]
      exact extractE_err v "$" 0 ⟨c, hc, hbad⟩
  · unfold parseJsonToCards
    split
    · rfl
    · rfl
  · intro h
    unfold parseJsonToCardsE
    rw [h]
    rfl

/-- Claim C2, witness: the characterization applied at a primitive root
with an absent label (normal return, no error) and at an all-ASCII
two-level object (every card path is Latin-1, so extraction returns the
usual card list). -/
theorem claim_c2_witness :
    parseJsonToCardsE (JsonValue.num 5) none
      = .ok [primitiveRootCard (JsonValue.num 5) none] ∧
    parseJsonToCardsE
        (JsonValue.obj (ofFields [("a", JsonValue.obj (ofFields [("b", JsonValue.num 1)]))]))
        (some "f")
      = .ok (parseJsonToCards
        (JsonValue.obj (ofFields [("a", JsonValue.obj (ofFields [("b", JsonValue.num 1)]))]))
        (some "f")) :=
  ⟨(claim_c2_failure_characterization (JsonValue.num 5) none).2.2.2 (by decide),
   (claim_c2_failure_characterization
     (JsonValue.obj (ofFields [("a", JsonValue.obj (ofFields [("b", JsonValue.num 1)]))]))
     (some "f")).1 (by decide)⟩

/-- Claim C6, counterexample: the primitive-root card does not carry an
empty `warnings` sequence — the optional `warnings` field is left unset
(undefined), which is observably different from the empty sequence. -/
theorem claim_c6_counterexample :
    (parseJsonToCards (JsonValue.num 5) (some "f")).map (fun c => c.warnings) = [none] ∧
    ¬ ((parseJsonToCards (JsonValue.num 5) (some "f")).map (fun c => c.warnings) = [some []]) := by
  constructor
  · rfl
  · decide

/-- Claim C6 (amended): for every JsonValue root that is neither an object
nor an array (including null) and every label, `parseJsonToCards` returns
exactly one card with `id = "root"`, `title` = the label, `description =
"Root value"`, `path = "$"`, `content` = the root value, `type =
"primitive"`, `isValid = true`, and with the optional `warnings` field
left unset (rather than set to the empty sequence), performing no further
traversal. -/
theorem claim_c6_primitive_root (v : JsonValue) (label : Option String)
    (h : isObjectLike v = false) :
    parseJsonToCards v label
      = [{ id := "root", title := label, description := "Root value", path := "$",
           content := v, type := "primitive", isValid := true, warnings := none }] := by
  unfold parseJsonToCards
  rw [h]
  rfl

/-- Claim C6, witness: the amended statement applied at root `null` with
label "f". -/
theorem claim_c6_witness :
    parseJsonToCards JsonValue.null (some "f")
      = [{ id := "root", title := some "f", description := "Root value", path := "$",
           content := JsonValue.null, type := "primitive", isValid := true, warnings := none }] :=
  claim_c6_primitive_root JsonValue.null (some "f") (by decide)

/-- Claim C7 (confirmed): `renderPreview({userId: 7}, 5)` contains the
friendly label "User ID" paired with the value 7 and not the raw key
`userId`; the fixed lookup table maps both the camelCase and the
snake_case spelling to "User ID". -/
theorem claim_c7_friendly_label :
    strIncludes (formatJsonPreview (JsonValue.obj (ofFields [("userId", JsonValue.num 7)])) 5)
      "User ID: 7" = true ∧
    strIncludes (formatJsonPreview (JsonValue.obj (ofFields [("userId", JsonValue.num 7)])) 5)
      "userId" = false ∧
    makeKeyFriendly "userId" = "User ID" ∧
    makeKeyFriendly "user_id" = "User ID" := by
  refine ⟨?_, ?_, ?_, ?_⟩ <;> decide

/-- Claim C8 (confirmed): an object with zero keys never produces a card
of its own: `extractCards({}, "f")` yields no cards, `extractCards({a:{}},
"f")` yields exactly one card, at path `$`, and in general a traversal
visit of an empty object emits nothing at any path and depth. -/
theorem claim_c8_empty_objects :
    parseJsonToCards (JsonValue.obj .nil) (some "f") = [] ∧
    (parseJsonToCards (JsonValue.obj (ofFields [("a", JsonValue.obj .nil)])) (some "f")).map
      (fun c => c.path) = ["$"] ∧
    ∀ (path : String) (depth : Nat), extractCards (JsonValue.obj .nil) path depth = [] := by
  refine ⟨rfl, rfl, ?_⟩
  intro path depth
  unfold extractCards
  simp [extractChildren, fieldsLength, fieldsList]

/-! Structural lemmas about the traversal: the shape of every emitted
card, its id, and the dot-path extension discipline. -/

mutual

theorem cardShapeV : ∀ (v : JsonValue) (path : String) (depth : Nat) (c : JsonCard),
    c ∈ extractCards v path depth →
    (∃ xs p, c = arrayCardAt xs p) ∨ (∃ fs p, c = objCardAt fs p ∧ 0 < fieldsLength fs)
  | .null, path, depth, c => by
      unfold extractCards
      split
      · simp
      · simp
  | .bool b, path, depth, c => by
      unfold extractCards
      split
      · simp
      · simp
  | .num n, path, depth, c => by
      unfold extractCards
      split
      · simp
      · simp
  | .str s, path, depth, c => by
      unfold extractCards
      split
      · simp
      · simp
  | .arr xs, path, depth, c => by
      unfold extractCards
      split
      · simp
      · intro h
        exact Or.inl ⟨xs, path, List.mem_singleton.mp h⟩
  | .obj fs, path, depth, c => by
      unfold extractCards
      split
      · simp
      · intro h
        rcases List.mem_append.mp h with h1 | h2
        · by_cases hpos : fieldsLength fs > 0
          · rw [if_pos hpos] at h1
            exact Or.inr ⟨fs, path, List.mem_singleton.mp h1, hpos⟩
          · rw [if_neg hpos] at h1
            simp at h1
        · exact cardShapeF fs path depth c h2

theorem cardShapeF : ∀ (fs : JsonFields) (path : String) (depth : Nat) (c : JsonCard),
    c ∈ extractChildren fs path depth →
    (∃ xs p, c = arrayCardAt xs p) ∨ (∃ fs2 p, c = objCardAt fs2 p ∧ 0 < fieldsLength fs2)
  | .nil, path, depth, c => by
      intro h
      simp [extractChildren] at h
  | .cons key value rest, path, depth, c => by
      intro h
      unfold extractChildren at h
      rcases List.mem_append.mp h with h1 | h2
      · split at h1
        · exact cardShapeV value (childPath path key) (depth + 1) c h1
        · simp at h1
      · exact cardShapeF rest path depth c h2

end

theorem emitted_id (v : JsonValue) (path : String) (depth : Nat) (c : JsonCard)
    (h : c ∈ extractCards v path depth) : c.id = generateId c.path := by
  rcases cardShapeV v path depth c h with ⟨xs, p, rfl⟩ | ⟨fs, p, rfl, _⟩ <;> rfl

theorem emitted_warnings (v : JsonValue) (path : String) (depth : Nat) (c : JsonCard)
    (h : c ∈ extractCards v path depth) :
    c.warnings = some (getWarnings c.content) ∧ isObjectLike c.content = true := by
  rcases cardShapeV v path depth c h with ⟨xs, p, rfl⟩ | ⟨fs, p, rfl, _⟩ <;> exact ⟨rfl, rfl⟩

theorem childPath_data (path key : String) :
    (childPath path key).data = path.data ++ '.' :: key.data := by
  unfold childPath
  split
  · rename_i hp
    have : path = "$" := by simpa using hp
    rw [this]
    simp [String.data_append]
  · rw [String.data_append, String.data_append]
    simp

mutual

theorem pathExtV : ∀ (v : JsonValue) (path : String) (depth : Nat) (c : JsonCard),
    c ∈ extractCards v path depth →
    c.path = path ∨ ∃ t, c.path.data = path.data ++ '.' :: t
  | .null, path, depth, c => by unfold extractCards; split <;> simp
  | .bool b, path, depth, c => by unfold extractCards; split <;> simp
  | .num n, path, depth, c => by unfold extractCards; split <;> simp
  | .str s, path, depth, c => by unfold extractCards; split <;> simp
  | .arr xs, path, depth, c => by
      unfold extractCards
      split
      · simp
      · intro h
        rw [List.mem_singleton.mp h]
        exact Or.inl rfl
  | .obj fs, path, depth, c => by
      unfold extractCards
      split
      · simp
      · intro h
        rcases List.mem_append.mp h with h1 | h2
        · rw [mem_ite_singleton h1]
          exact Or.inl rfl
        · exact Or.inr (pathExtF fs path depth c h2)

theorem pathExtF : ∀ (fs : JsonFields) (path : String) (depth : Nat) (c : JsonCard),
    c ∈ extractChildren fs path depth →
    ∃ t, c.path.data = path.data ++ '.' :: t
  | .nil, path, depth, c => by intro h; simp [extractChildren] at h
  | .cons key value rest, path, depth, c => by
      intro h
      unfold extractChildren at h
      rcases List.mem_append.mp h with h1 | h2
      · have h1b : c ∈ extractCards value (childPath path key) (depth + 1) := mem_ite_nil h1
        rcases pathExtV value (childPath path key) (depth + 1) c h1b with heq | ⟨t, ht⟩
        · exact ⟨key.data, by rw [heq, childPath_data]⟩
        · refine ⟨key.data ++ '.' :: t, ?_⟩
          rw [ht, childPath_data]
          simp
      · exact pathExtF rest path depth c h2

end

theorem childProvenance : ∀ (fs : JsonFields) (path : String) (depth : Nat) (c : JsonCard),
    c ∈ extractChildren fs path depth →
    ∃ k v, keysHas fs k = true ∧ c ∈ extractCards v (childPath path k) (depth + 1)
  | .nil, path, depth, c => by intro h; simp [extractChildren] at h
  | .cons key value rest, path, depth, c => by
      intro h
      unfold extractChildren at h
      rcases List.mem_append.mp h with h1 | h2
      · exact ⟨key, value, by simp [keysHas], mem_ite_nil h1⟩
      · obtain ⟨k, v, hk, hmem⟩ := childProvenance rest path depth c h2
        exact ⟨k, v, by simp [keysHas, hk], hmem⟩

theorem noDotKeysF_key : ∀ (fs : JsonFields), noDotKeysF fs = true →
    ∀ (k : String), keysHas fs k = true → '.' ∉ k.data
  | .nil => by intro _ k hk; simp [keysHas] at hk
  | .cons key value rest => by
      intro h k hk
      simp only [noDotKeysF, Bool.and_eq_true] at h
      simp only [keysHas, Bool.or_eq_true] at hk
      rcases hk with hk | hk
      · have hkey : key = k := by simpa using hk
        subst hkey
        intro hmem
        have := List.all_eq_true.mp h.1.1 _ hmem
        simp at this
      · exact noDotKeysF_key rest h.2 k hk

theorem dotCount_childPath (path key : String) (hk : '.' ∉ key.data) :
    dotCount (childPath path key) = dotCount path + 1 := by
  unfold dotCount
  rw [childPath_data]
  simp [List.count_append, List.count_cons, List.count_eq_zero.mpr hk]

mutual

theorem dotBoundV : ∀ (v : JsonValue) (path : String) (depth : Nat) (c : JsonCard),
    noDotKeys v = true → c ∈ extractCards v path depth →
    dotCount c.path + depth ≤ dotCount path + 3
  | .null, path, depth, c => by unfold extractCards; intro _; split <;> simp
  | .bool b, path, depth, c => by unfold extractCards; intro _; split <;> simp
  | .num n, path, depth, c => by unfold extractCards; intro _; split <;> simp
  | .str s, path, depth, c => by unfold extractCards; intro _; split <;> simp
  | .arr xs, path, depth, c => by
      unfold extractCards
      intro _
      split
      · simp
      · rename_i hd
        intro h
        rw [List.mem_singleton.mp h]
        show dotCount path + depth ≤ dotCount path + 3
        simp at hd
        omega
  | .obj fs, path, depth, c => by
      unfold extractCards
      intro hnd
      split
      · simp
      · rename_i hd
        simp at hd
        intro h
        rcases List.mem_append.mp h with h1 | h2
        · rw [mem_ite_singleton h1]
          show dotCount path + depth ≤ dotCount path + 3
          omega
        · exact dotBoundF fs path depth c (by simpa [noDotKeys] using hnd) h2

theorem dotBoundF : ∀ (fs : JsonFields) (path : String) (depth : Nat) (c : JsonCard),
    noDotKeysF fs = true → c ∈ extractChildren fs path depth →
    dotCount c.path + depth ≤ dotCount path + 3
  | .nil, path, depth, c => by intro _ h; simp [extractChildren] at h
  | .cons key value rest, path, depth, c => by
      intro hnd h
      simp only [noDotKeysF, Bool.and_eq_true] at hnd
      unfold extractChildren at h
      rcases List.mem_append.mp h with h1 | h2
      · have h1b : c ∈ extractCards value (childPath path key) (depth + 1) := mem_ite_nil h1
        have hrec := dotBoundV value (childPath path key) (depth + 1) c hnd.1.2 h1b
        have hkdot : '.' ∉ key.data := by
          intro hmem
          have := List.all_eq_true.mp hnd.1.1 _ hmem
          simp at this
        rw [dotCount_childPath path key hkdot] at hrec
        omega
      · exact dotBoundF rest path depth c hnd.2 h2

end

/-- The document `{"a.b.c.d.e": {"x": 1}}`, whose single key contains dots. -/
def dottedKeyDoc : JsonValue :=
  .obj (ofFields [("a.b.c.d.e", .obj (ofFields [("x", .num 1)]))])

/-- Claim C4, counterexample: a legal JSON key containing dots breaks the
dot-delimited segment bound: `{"a.b.c.d.e": {x:1}}` produces a card at
path `$.a.b.c.d.e`, which has 5 dot-delimited segments beyond `$`. -/
theorem claim_c4_counterexample :
    "$.a.b.c.d.e" ∈ (parseJsonToCards dottedKeyDoc (some "f")).map (fun c => c.path) ∧
    4 < dotCount "$.a.b.c.d.e" := by
  constructor <;> decide

/-- Claim C4 (amended): the fixed depth bound 3 is enforced — the
traversal performs at most 3 object-key descents beyond `$` — so for
every document whose object keys contain no `.` character, no card's path
has more than 3 (a fortiori, more than 4) dot-delimited segments beyond
`$`; in particular the nested example produces no card at `$.a.b.c.d`.
Keys that themselves contain dots inflate the textual segment count, as
the counterexample shows. -/
theorem claim_c4_depth_bound (doc : JsonValue) (label : Option String)
    (h : noDotKeys doc = true) :
    ∀ p ∈ (parseJsonToCards doc label).map (fun c => c.path), dotCount p ≤ 3 := by
  intro p hp
  unfold parseJsonToCards at hp
  split at hp
  · simp only [List.map_cons, List.map_nil, List.mem_singleton] at hp
    rw [hp]
    show dotCount "$" ≤ 3
    decide
  · obtain ⟨c, hc, rfl⟩ := List.mem_map.mp hp
    have hb := dotBoundV doc "$" 0 c h hc
    have h0 : dotCount "$" = 0 := by decide
    omega

/-- The five-level nesting `{a:{b:{c:{d:{e:1}}}}}` from the claim. -/
def deepDoc : JsonValue :=
  .obj (ofFields [("a", .obj (ofFields [("b", .obj (ofFields [("c",
    .obj (ofFields [("d", .obj (ofFields [("e", .num 1)]))]))]))]))])

/-- Claim C4, witness: the bound applied to the claim's own example, plus
the claimed absence of a card at `$.a.b.c.d`. -/
theorem claim_c4_witness :
    noDotKeys deepDoc = true ∧
    dotCount "$.a.b.c" ≤ 3 ∧
    "$.a.b.c.d" ∉ (parseJsonToCards deepDoc (some "f")).map (fun c => c.path) :=
  ⟨by decide,
   claim_c4_depth_bound deepDoc (some "f") (by decide) "$.a.b.c" (by decide),
   by decide⟩

/-- The document `{"abcde": {x:1}, "abcdf": {x:1}}`, whose two child paths
agree on their first six characters. -/
def collidingDoc : JsonValue :=
  .obj (ofFields [("abcde", .obj (ofFields [("x", .num 1)])),
                  ("abcdf", .obj (ofFields [("x", .num 1)]))])

/-- Claim C3, counterexample: card ids are not pairwise distinct.  The
paths `$.abcde` and `$.abcdf` differ, but base64-encoding truncated to 8
characters only covers the first 6 bytes of the path, so both cards get
the id `JC5hYmNk` and the returned id sequence has a duplicate. -/
theorem claim_c3_counterexample :
    ¬ ((parseJsonToCards collidingDoc (some "f")).map (fun c => c.id)).Nodup ∧
    ((parseJsonToCards collidingDoc (some "f")).map (fun c => c.path)).Nodup := by
  constructor <;> decide

/-- Claim C3 (amended): every non-primitive card's id is the deterministic
function `generateId` of its path (same path always gives the same id),
but distinct paths may collide after base64 truncation to 8 characters;
the ids of one extraction pass are pairwise distinct exactly when
`generateId` is injective on the pass's paths, which the hypothesis
states and the counterexample's document violates. -/
theorem claim_c3_ids_distinct (doc : JsonValue) (label : Option String)
    (h : ((parseJsonToCards doc label).map (fun c => generateId c.path)).Nodup) :
    ((parseJsonToCards doc label).map (fun c => c.id)).Nodup := by
  by_cases hobj : isObjectLike doc = true
  · have hre : parseJsonToCards doc label = extractCards doc "$" 0 := by
      simp [parseJsonToCards, hobj]
    rw [hre] at h ⊢
    have hmapeq : (extractCards doc "$" 0).map (fun c => c.id)
        = (extractCards doc "$" 0).map (fun c => generateId c.path) :=
      List.map_congr_left (fun c hc => emitted_id doc "$" 0 c hc)
    rw [hmapeq]
    exact h
  · have hfalse : isObjectLike doc = false := by
      cases hval : isObjectLike doc
      · rfl
      · exact absurd hval hobj
    have hre : parseJsonToCards doc label = [primitiveRootCard doc label] := by
      simp [parseJsonToCards, hfalse]
    rw [hre]
    simp

/-- Claim C3, witness: on `{a:{b:1}}` the two card paths `$` and `$.a`
base64-encode to distinct 8-character codes, so the ids are distinct. -/
theorem claim_c3_witness :
    ((parseJsonToCards (JsonValue.obj (ofFields [("a", JsonValue.obj (ofFields [("b", JsonValue.num 1)]))])) (some "f")).map
      (fun c => generateId c.path)).Nodup ∧
    ((parseJsonToCards (JsonValue.obj (ofFields [("a", JsonValue.obj (ofFields [("b", JsonValue.num 1)]))])) (some "f")).map
      (fun c => c.id)).Nodup :=
  ⟨by decide,
   claim_c3_ids_distinct (JsonValue.obj (ofFields [("a", JsonValue.obj (ofFields [("b", JsonValue.num 1)]))])) (some "f") (by decide)⟩

theorem nullWarn_mem (v : JsonValue) (h : isObjectLike v = true) :
    ("Contains null values" ∈ getWarnings v ↔ strIncludes (jsonStringify v) "null" = true) := by
  unfold getWarnings
  rw [if_pos h]
  constructor
  · intro hm
    rcases List.mem_append.mp hm with h1 | h2
    · rcases List.mem_append.mp h1 with ha | hb
      · exact absurd (mem_ite_singleton ha) (by decide)
      · exact absurd (mem_ite_singleton hb) (by decide)
    · by_cases hc : strIncludes (jsonStringify v) "null" = true
      · exact hc
      · rw [if_neg hc] at h2
        simp at h2
  · intro hc
    apply List.mem_append.mpr
    right
    rw [if_pos hc]
    simp

/-- Claim C9 (confirmed): for every emitted non-primitive card, the
"Contains null values" warning is present exactly when the JSON
serialization of the card's content contains the character sequence
`null` — a substring test on the serialized text, not a test for actual
null values, so e.g. an object whose string value is "annulled" also
carries the warning. -/
theorem claim_c9_null_warning (doc : JsonValue) (label : Option String) (c : JsonCard)
    (hmem : c ∈ parseJsonToCards doc label) (htype : ¬ c.type = "primitive") :
    (strIncludes (jsonStringify c.content) "null" = true
      ↔ "Contains null values" ∈ c.warnings.getD []) := by
  by_cases hobj : isObjectLike doc = true
  · have hre : parseJsonToCards doc label = extractCards doc "$" 0 := by
      simp [parseJsonToCards, hobj]
    rw [hre] at hmem
    obtain ⟨hw, hcontent⟩ := emitted_warnings doc "$" 0 c hmem
    rw [hw]
    simp only [Option.getD_some]
    exact (nullWarn_mem c.content hcontent).symm
  · exfalso
    have hfalse : isObjectLike doc = false := by
      cases hval : isObjectLike doc
      · rfl
      · exact absurd hval hobj
    have hre : parseJsonToCards doc label = [primitiveRootCard doc label] := by
      simp [parseJsonToCards, hfalse]
    rw [hre] at hmem
    rw [List.mem_singleton.mp hmem] at htype
    exact htype rfl

/-- Claim C9, witness: the equivalence applied to the root card of
`{"msg": "annulled"}` — no null value anywhere, yet the serialized text
contains "null" inside "annulled", so the card carries the warning. -/
theorem claim_c9_witness :
    (strIncludes (jsonStringify (objCardAt (ofFields [("msg", JsonValue.str "annulled")]) "$").content) "null" = true
      ↔ "Contains null values" ∈ (objCardAt (ofFields [("msg", JsonValue.str "annulled")]) "$").warnings.getD []) ∧
    "Contains null values" ∈ (objCardAt (ofFields [("msg", JsonValue.str "annulled")]) "$").warnings.getD [] :=
  have happ := claim_c9_null_warning
    (JsonValue.obj (ofFields [("msg", JsonValue.str "annulled")])) (some "f")
    (objCardAt (ofFields [("msg", JsonValue.str "annulled")]) "$")
    (by decide) (by decide)
  ⟨happ, happ.mp (by decide)⟩

theorem emptyObjWarn_arr (xs : JsonList) :
    "Empty object" ∉ getWarnings (JsonValue.arr xs) := by
  unfold getWarnings
  rw [if_pos (by rfl : isObjectLike (JsonValue.arr xs) = true)]
  intro hm
  rcases List.mem_append.mp hm with h1 | h2
  · rcases List.mem_append.mp h1 with ha | hb
    · exact absurd (mem_ite_singleton ha) (by decide)
    · have hcond : (!isArray (JsonValue.arr xs) && jsKeysCount (JsonValue.arr xs) == 0) = false := rfl
      rw [hcond] at hb
      simp at hb
  · by_cases hc : strIncludes (jsonStringify (JsonValue.arr xs)) "null" = true
    · rw [if_pos hc] at h2
      exact absurd (List.mem_singleton.mp h2) (by decide)
    · rw [if_neg hc] at h2
      simp at h2

theorem emptyObjWarn_obj (fs : JsonFields) (hpos : 0 < fieldsLength fs) :
    "Empty object" ∉ getWarnings (JsonValue.obj fs) := by
  unfold getWarnings
  rw [if_pos (by rfl : isObjectLike (JsonValue.obj fs) = true)]
  intro hm
  rcases List.mem_append.mp hm with h1 | h2
  · rcases List.mem_append.mp h1 with ha | hb
    · have hca : (isArray (JsonValue.obj fs) && jsArrayLength (JsonValue.obj fs) == 0) = false := rfl
      rw [hca] at ha
      simp at ha
    · have hkz : (jsKeysCount (JsonValue.obj fs) == 0) = false := by
        have : jsKeysCount (JsonValue.obj fs) = fieldsLength fs := rfl
        rw [this]
        simpa using Nat.pos_iff_ne_zero.mp hpos
      have hcond : (!isArray (JsonValue.obj fs) && jsKeysCount (JsonValue.obj fs) == 0) = false := by
        rw [Bool.and_eq_false_iff]
        right
        exact hkz
      rw [hcond] at hb
      simp at hb
  · by_cases hc : strIncludes (jsonStringify (JsonValue.obj fs)) "null" = true
    · rw [if_pos hc] at h2
      exact absurd (List.mem_singleton.mp h2) (by decide)
    · rw [if_neg hc] at h2
      simp at h2

/-- Claim C10 (confirmed): no card ever returned by the extractor carries
the "Empty object" warning: object cards exist only for objects with at
least one key (for which the zero-keys check is false), the check never
fires for array cards, and the primitive-root card has no warnings at
all, so the warning string is unreachable at the public interface. -/
theorem claim_c10_no_empty_object (doc : JsonValue) (label : Option String) (c : JsonCard)
    (hmem : c ∈ parseJsonToCards doc label) :
    "Empty object" ∉ c.warnings.getD [] := by
  by_cases hobj : isObjectLike doc = true
  · have hre : parseJsonToCards doc label = extractCards doc "$" 0 := by
      simp [parseJsonToCards, hobj]
    rw [hre] at hmem
    rcases cardShapeV doc "$" 0 c hmem with ⟨xs, p, rfl⟩ | ⟨fs, p, rfl, hpos⟩
    · simpa using emptyObjWarn_arr xs
    · simpa using emptyObjWarn_obj fs hpos
  · have hfalse : isObjectLike doc = false := by
      cases hval : isObjectLike doc
      · rfl
      · exact absurd hval hobj
    have hre : parseJsonToCards doc label = [primitiveRootCard doc label] := by
      simp [parseJsonToCards, hfalse]
    rw [hre] at hmem
    rw [List.mem_singleton.mp hmem]
    simp [primitiveRootCard]

/-- Claim C10, witness: the statement applied to the root card of
`{"a": {}}` — the child is an empty object, yet no emitted card carries
the "Empty object" warning. -/
theorem claim_c10_witness :
    "Empty object" ∉ (objCardAt (ofFields [("a", JsonValue.obj JsonFields.nil)]) "$").warnings.getD [] :=
  claim_c10_no_empty_object
    (JsonValue.obj (ofFields [("a", JsonValue.obj JsonFields.nil)])) (some "f")
    (objCardAt (ofFields [("a", JsonValue.obj JsonFields.nil)]) "$")
    (by decide)

theorem strDataEq {a b : String} (h : a.data = b.data) : a = b := by
  cases a; cases b; exact congrArg String.mk h

theorem notBelow_shorter {p q : String} (h : q.data.length ≤ p.data.length) :
    isBelow p q = false := by
  cases hib : isBelow p q
  · rfl
  · have := isBelow_length hib
    omega

theorem subtreePathShape {v : JsonValue} {path key : String} {depth : Nat} {c : JsonCard}
    (h : c ∈ extractCards v (childPath path key) depth) :
    ∃ t, c.path.data = path.data ++ '.' :: (key.data ++ t) ∧ (t = [] ∨ ∃ s, t = '.' :: s) := by
  rcases pathExtV v (childPath path key) depth c h with heq | ⟨t, ht⟩
  · refine ⟨[], ?_, Or.inl rfl⟩
    rw [heq, childPath_data]
    simp
  · refine ⟨'.' :: t, ?_, Or.inr ⟨t, rfl⟩⟩
    rw [ht, childPath_data]
    simp

theorem firstSegEq : ∀ (k₁ k₂ t₁ t₂ : List Char),
    '.' ∉ k₁ → '.' ∉ k₂ →
    (t₁ = [] ∨ ∃ s, t₁ = '.' :: s) → (t₂ = [] ∨ ∃ s, t₂ = '.' :: s) →
    k₁ ++ t₁ = k₂ ++ t₂ → k₁ = k₂ := by
  intro k₁
  induction k₁ with
  | nil =>
      intro k₂ t₁ t₂ _ h2 d1 _ heq
      cases k₂ with
      | nil => rfl
      | cons b bs =>
          exfalso
          rcases d1 with rfl | ⟨s, rfl⟩
          · simp at heq
          · simp only [List.nil_append, List.cons_append] at heq
            injection heq with hb _
            exact h2 (by simp [← hb])
  | cons a as ih =>
      intro k₂ t₁ t₂ h1 h2 d1 d2 heq
      cases k₂ with
      | nil =>
          exfalso
          rcases d2 with rfl | ⟨s, rfl⟩
          · simp at heq
          · simp only [List.cons_append, List.nil_append] at heq
            injection heq with ha _
            exact h1 (by simp [ha])
      | cons b bs =>
          simp only [List.cons_append] at heq
          injection heq with hab hrest
          rw [hab, ih bs t₁ t₂ (fun hm => h1 (by simp [hm])) (fun hm => h2 (by simp [hm])) d1 d2 hrest]

theorem siblingNotBelow {path k₁ k₂ p q : String} {t₁ t₂ : List Char}
    (hp : p.data = path.data ++ '.' :: (k₁.data ++ t₁))
    (hq : q.data = path.data ++ '.' :: (k₂.data ++ t₂))
    (d₁ : t₁ = [] ∨ ∃ s, t₁ = '.' :: s) (d₂ : t₂ = [] ∨ ∃ s, t₂ = '.' :: s)
    (hk₁ : '.' ∉ k₁.data) (hk₂ : '.' ∉ k₂.data) (hne : k₁ ≠ k₂) :
    isBelow p q = false := by
  cases hib : isBelow p q
  · rfl
  · exfalso
    obtain ⟨r, hr⟩ := isBelow_data hib
    rw [hp, hq] at hr
    simp only [List.append_assoc, List.cons_append, List.append_cancel_left_eq,
      List.cons.injEq, true_and] at hr
    have hd : (t₁ ++ '.' :: r) = [] ∨ ∃ s, (t₁ ++ '.' :: r) = '.' :: s := by
      rcases d₁ with rfl | ⟨s, rfl⟩
      · exact Or.inr ⟨r, rfl⟩
      · exact Or.inr ⟨s ++ '.' :: r, by simp⟩
    have hkeq := firstSegEq k₂.data k₁.data t₂ (t₁ ++ '.' :: r) hk₂ hk₁ d₂ hd (by
      rw [← List.append_assoc] at hr
      simpa using hr)
    exact hne (strDataEq hkeq).symm

mutual

theorem siblingsV : ∀ (v : JsonValue) (path : String) (depth : Nat),
    wfKeys v = true → noDotKeys v = true →
    ∀ c₁ ∈ extractCards v path depth, ∀ c₂ ∈ extractCards v path depth,
    c₁.type = "array" → isBelow c₁.path c₂.path = false
  | .null, path, depth => by
      intro _ _ c₁ h₁
      unfold extractCards at h₁
      split at h₁ <;> simp at h₁
  | .bool b, path, depth => by
      intro _ _ c₁ h₁
      unfold extractCards at h₁
      split at h₁ <;> simp at h₁
  | .num n, path, depth => by
      intro _ _ c₁ h₁
      unfold extractCards at h₁
      split at h₁ <;> simp at h₁
  | .str s, path, depth => by
      intro _ _ c₁ h₁
      unfold extractCards at h₁
      split at h₁ <;> simp at h₁
  | .arr xs, path, depth => by
      intro _ _ c₁ h₁ c₂ h₂ _
      unfold extractCards at h₁ h₂
      split at h₁
      · simp at h₁
      · rename_i hd
        rw [if_neg hd] at h₂
        rw [List.mem_singleton.mp h₁, List.mem_singleton.mp h₂]
        exact isBelow_self path
  | .obj fs, path, depth => by
      intro hwf hnd c₁ h₁ c₂ h₂ htype
      simp only [wfKeys, Bool.and_eq_true] at hwf
      have hndf : noDotKeysF fs = true := by simpa [noDotKeys] using hnd
      unfold extractCards at h₁ h₂
      split at h₁
      · simp at h₁
      · rename_i hd
        rw [if_neg hd] at h₂
        rcases List.mem_append.mp h₁ with hs₁ | hc₁
        · rw [mem_ite_singleton hs₁] at htype
          have hob : (objCardAt fs path).type = "object" := rfl
          rw [hob] at htype
          exact absurd htype (by decide)
        · rcases List.mem_append.mp h₂ with hs₂ | hc₂
          · rw [mem_ite_singleton hs₂]
            obtain ⟨t, hext⟩ := pathExtF fs path depth c₁ hc₁
            apply notBelow_shorter
            show path.data.length ≤ c₁.path.data.length
            rw [hext]
            simp only [List.length_append, List.length_cons]
            omega
          · exact siblingsF fs path depth hwf.1 hwf.2 hndf c₁ hc₁ c₂ hc₂ htype

theorem siblingsF : ∀ (fs : JsonFields) (path : String) (depth : Nat),
    keysDistinct fs = true → wfKeysF fs = true → noDotKeysF fs = true →
    ∀ c₁ ∈ extractChildren fs path depth, ∀ c₂ ∈ extractChildren fs path depth,
    c₁.type = "array" → isBelow c₁.path c₂.path = false
  | .nil, path, depth => by
      intro _ _ _ c₁ h₁
      simp [extractChildren] at h₁
  | .cons key value rest, path, depth => by
      intro hkd hwf hnd c₁ h₁ c₂ h₂ htype
      simp only [keysDistinct, Bool.and_eq_true] at hkd
      simp only [wfKeysF, Bool.and_eq_true] at hwf
      simp only [noDotKeysF, Bool.and_eq_true] at hnd
      have hkeydot : '.' ∉ key.data := by
        intro hm
        have := List.all_eq_true.mp hnd.1.1 _ hm
        simp at this
      have hnothas : keysHas rest key = false := by
        have := hkd.1
        cases hv : keysHas rest key
        · rfl
        · rw [hv] at this; simp at this
      unfold extractChildren at h₁ h₂
      rcases List.mem_append.mp h₁ with ha₁ | hb₁
      · rcases List.mem_append.mp h₂ with ha₂ | hb₂
        · exact siblingsV value (childPath path key) (depth + 1) hwf.1 hnd.1.2
            c₁ (mem_ite_nil ha₁) c₂ (mem_ite_nil ha₂) htype
        · obtain ⟨t₁, hp₁, hd₁⟩ := subtreePathShape (mem_ite_nil ha₁)
          obtain ⟨k₂, v₂, hk₂, hm₂⟩ := childProvenance rest path depth c₂ hb₂
          obtain ⟨t₂, hp₂, hd₂⟩ := subtreePathShape hm₂
          have hk₂dot : '.' ∉ k₂.data := noDotKeysF_key rest hnd.2 k₂ hk₂
          have hne : key ≠ k₂ := by
            intro he
            rw [he] at hnothas
            rw [hk₂] at hnothas
            exact Bool.true_eq_false.mp hnothas
          exact siblingNotBelow hp₁ hp₂ hd₁ hd₂ hkeydot hk₂dot hne
      · rcases List.mem_append.mp h₂ with ha₂ | hb₂
        · obtain ⟨k₁, v₁, hk₁, hm₁⟩ := childProvenance rest path depth c₁ hb₁
          obtain ⟨t₁, hp₁, hd₁⟩ := subtreePathShape hm₁
          obtain ⟨t₂, hp₂, hd₂⟩ := subtreePathShape (mem_ite_nil ha₂)
          have hk₁dot : '.' ∉ k₁.data := noDotKeysF_key rest hnd.2 k₁ hk₁
          have hne : k₁ ≠ key := by
            intro he
            rw [he] at hk₁
            rw [hk₁] at hnothas
            exact Bool.true_eq_false.mp hnothas
          exact siblingNotBelow hp₁ hp₂ hd₁ hd₂ hk₁dot hkeydot hne
        · exact siblingsF rest path depth hkd.2 hwf.2 hnd.2 c₁ hb₁ c₂ hb₂ htype

end

/-- The document `{"list": [1], "list.x": {a:1}}`: a sibling key
containing a dot places a card textually below the array's path. -/
def dottedSiblingDoc : JsonValue :=
  .obj (ofFields [("list", .arr (ofList [.num 1])),
                  ("list.x", .obj (ofFields [("a", .num 1)]))])

/-- Claim C5, counterexample: the claim's "no card at any path strictly
below an array card" fails as universally stated: in
`{"list": [1], "list.x": {a:1}}` the sibling key `list.x` yields a card
at `$.list.x`, which lies strictly below the array card's path `$.list`
even though the traversal never descended into the array. -/
theorem claim_c5_counterexample :
    ("$.list", "array") ∈ (parseJsonToCards dottedSiblingDoc (some "f")).map
      (fun c => (c.path, c.type)) ∧
    "$.list.x" ∈ (parseJsonToCards dottedSiblingDoc (some "f")).map (fun c => c.path) ∧
    isBelow "$.list" "$.list.x" = true := by
  refine ⟨?_, ?_, ?_⟩ <;> decide

/-- Claim C5 (amended): every array node reached by the traversal (depth
at most 3) yields exactly one card — the array card, with type "array"
and description "Array with {length} items" — and nothing from inside the
array; and for every document whose objects have pairwise-distinct keys
(as JavaScript guarantees) and whose keys contain no dots, no card of the
extraction lies at a path strictly below any array card's path.  A
sibling key containing a dot can still create a card textually below the
array's path, as the counterexample shows. -/
theorem claim_c5_array_leaf (doc : JsonValue) (label : Option String)
    (hwf : wfKeys doc = true) (hdot : noDotKeys doc = true) :
    (∀ (xs : JsonList) (path : String) (depth : Nat), depth ≤ 3 →
      extractCards (JsonValue.arr xs) path depth = [arrayCardAt xs path]) ∧
    (∀ c₁ ∈ parseJsonToCards doc label, ∀ c₂ ∈ parseJsonToCards doc label,
      c₁.type = "array" → isBelow c₁.path c₂.path = false) := by
  constructor
  · intro xs path depth hd
    unfold extractCards
    rw [if_neg (by omega)]
  · intro c₁ h₁ c₂ h₂ htype
    by_cases hobj : isObjectLike doc = true
    · have hre : parseJsonToCards doc label = extractCards doc "$" 0 := by
        simp [parseJsonToCards, hobj]
      rw [hre] at h₁ h₂
      exact siblingsV doc "$" 0 hwf hdot c₁ h₁ c₂ h₂ htype
    · have hfalse : isObjectLike doc = false := by
        cases hval : isObjectLike doc
        · rfl
        · exact absurd hval hobj
      have hre : parseJsonToCards doc label = [primitiveRootCard doc label] := by
        simp [parseJsonToCards, hfalse]
      rw [hre] at h₁
      rw [List.mem_singleton.mp h₁] at htype
      have hpr : (primitiveRootCard doc label).type = "primitive" := rfl
      rw [hpr] at htype
      exact absurd htype (by decide)

/-- The array payload `[{x:1},{x:2}]` of the claim's example. -/
def listPayload : JsonList :=
  ofList [.obj (ofFields [("x", .num 1)]), .obj (ofFields [("x", .num 2)])]

/-- The fields of the claim's example document `{list:[{x:1},{x:2}]}`. -/
def listDocFields : JsonFields := ofFields [("list", .arr listPayload)]

/-- Claim C5, witness: the claim's own example `{list:[{x:1},{x:2}]}`:
the visit of the array node at `$.list` yields exactly its one card of
type "array" and description "Array with 2 items", and that card's path
has no other card below it. -/
theorem claim_c5_witness :
    wfKeys (JsonValue.obj listDocFields) = true ∧
    noDotKeys (JsonValue.obj listDocFields) = true ∧
    ("$.list", "array", "Array with 2 items")
      ∈ (parseJsonToCards (JsonValue.obj listDocFields) (some "f")).map
          (fun c => (c.path, c.type, c.description)) ∧
    extractCards (JsonValue.arr listPayload) "$.list" 1 = [arrayCardAt listPayload "$.list"] ∧
    isBelow (arrayCardAt listPayload "$.list").path (objCardAt listDocFields "$").path = false :=
  ⟨by decide, by decide, by decide,
   (claim_c5_array_leaf (JsonValue.obj listDocFields) (some "f") (by decide) (by decide)).1
     listPayload "$.list" 1 (by decide),
   (claim_c5_array_leaf (JsonValue.obj listDocFields) (some "f") (by decide) (by decide)).2
     (arrayCardAt listPayload "$.list") (by decide)
     (objCardAt listDocFields "$") (by decide) (by decide)⟩

